import Mathlib

/-!
Verification of the caliber journal storage engine.

This file is a shallow embedding of the storage core of the repository
(`src/storage.rs` and `src/storage/entries.rs`) together with theorems that
settle the claims of the natural-language specification.

Strings are modelled as lists of Unicode scalar values (`Str := List Char`),
matching Rust `str` semantics at the character level (indices count characters
rather than UTF-8 bytes; the two coincide on ASCII data, and none of the
properties below depends on byte widths of non-ASCII characters).
-/

abbrev Str := List Char

def litS (s : String) : Str := s.toList

def nlc : Char := '\n'

def crc : Char := '\r'

/-- Unicode White_Space set, as used by Rust `char::is_whitespace`
(`trim_start` / `trim_end` / `trim` / `split_whitespace`). -/
def isWs (c : Char) : Bool :=
  let n := c.toNat
  n = 0x09 || n = 0x0A || n = 0x0B || n = 0x0C || n = 0x0D || n = 0x20 ||
  n = 0x85 || n = 0xA0 || n = 0x1680 || (0x2000 ≤ n && n ≤ 0x200A) ||
  n = 0x2028 || n = 0x2029 || n = 0x202F || n = 0x205F || n = 0x3000

def isAsciiDigit (c : Char) : Bool := '0' ≤ c && c ≤ '9'

/-- Rust `str::trim_start`. -/
def trimStart (s : Str) : Str := s.dropWhile isWs

/-- Rust `str::trim_end`. -/
def trimEnd (s : Str) : Str := (s.reverse.dropWhile isWs).reverse

/-- Rust `str::trim`. -/
def trimBoth (s : Str) : Str := trimEnd (trimStart s)

/-- Rust `str::strip_prefix` with a string pattern. -/
def stripPref : Str → Str → Option Str
  | [], s => some s
  | _ :: _, [] => none
  | p :: ps, c :: cs => if p = c then stripPref ps cs else none

/-- Rust `str::starts_with` with a string pattern. -/
def hasPref (p s : Str) : Bool := (stripPref p s).isSome

/-- Prepend a character to the first piece of a piece list (starting a fresh
piece when there is none). -/
def consHead (c : Char) : List Str → List Str
  | [] => [[c]]
  | p :: ps => (c :: p) :: ps

/-- Rust `str::split_inclusive('\n')`: pieces keep their trailing newline. -/
def splitInclusive (sep : Char) : Str → List Str
  | [] => []
  | c :: cs =>
    if c = sep then [c] :: splitInclusive sep cs
    else consHead c (splitInclusive sep cs)

def strEndsWith (c : Char) (s : Str) : Bool := s.getLast? = some c

/-- The per-piece step of Rust `str::lines`: strip one trailing `'\n'`, and if
one was stripped also strip one trailing `'\r'`. -/
def chompLine (p : Str) : Str :=
  if strEndsWith nlc p then
    let q := p.dropLast
    if strEndsWith crc q then q.dropLast else q
  else p

/-- Rust `str::lines`. -/
def rustLines (s : Str) : List Str := (splitInclusive nlc s).map chompLine

/-- Join a list of lines with a single `'\n'` separator
(Rust `Vec::join("\n")`). -/
def joinNl : List Str → Str
  | [] => []
  | [l] => l
  | l :: l' :: ls => l ++ nlc :: joinNl (l' :: ls)

/-- Rust `str::split(sep)` on a character pattern. -/
def splitOnChar (sep : Char) : Str → List Str
  | [] => [[]]
  | c :: cs =>
    if c = sep then [] :: splitOnChar sep cs
    else consHead c (splitOnChar sep cs)

/-- Rust `str::matches(sep).count()` on a character pattern. -/
def countChar (c : Char) (s : Str) : Nat := s.count c

/-- Rust `str::find(char)`. -/
def findCharIdx (c : Char) : Str → Option Nat
  | [] => none
  | x :: xs => if x = c then some 0 else (findCharIdx c xs).map (· + 1)

/-- Rust `str::find(&str)`: index of the first substring occurrence. -/
def strFind (pat : Str) : Str → Option Nat
  | [] => if pat = [] then some 0 else none
  | c :: cs =>
    if (stripPref pat (c :: cs)).isSome then some 0
    else (strFind pat cs).map (· + 1)

/-! ### Basic lemmas about the string primitives -/

theorem stripPref_eq_some {p s r : Str} : stripPref p s = some r ↔ s = p ++ r := by
  induction p generalizing s with
  | nil =>
    cases s <;> simp [stripPref]
  | cons a ps ih =>
    cases s with
    | nil => simp [stripPref]
    | cons c cs =>
      by_cases h : a = c
      · subst h
        simp [stripPref, ih]
      · simp [stripPref, h]
        intro h'
        exact fun _ => h h'.symm

theorem stripPref_append (p r : Str) : stripPref p (p ++ r) = some r :=
  stripPref_eq_some.mpr rfl

theorem trimStart_cons_of_not_ws {c : Char} (s : Str) (h : isWs c = false) :
    trimStart (c :: s) = c :: s := by
  simp [trimStart, List.dropWhile_cons, h]

theorem trimStart_append_ws {ws : Str} (s : Str) (h : ∀ c ∈ ws, isWs c = true) :
    trimStart (ws ++ s) = trimStart s := by
  induction ws with
  | nil => rfl
  | cons c cs ih =>
    have hc : isWs c = true := h c (by simp)
    simp only [List.cons_append, trimStart, List.dropWhile_cons, hc, if_true]
    exact ih fun x hx => h x (by simp [hx])

theorem trimEnd_nil : trimEnd [] = [] := rfl

theorem trimEnd_append_ws_single {c : Char} (s : Str) (h : isWs c = true) :
    trimEnd (s ++ [c]) = trimEnd s := by
  simp [trimEnd, List.dropWhile_cons, h]

theorem trimEnd_of_getLast_not_ws {s : Str} {c : Char}
    (hl : s.getLast? = some c) (h : isWs c = false) : trimEnd s = s := by
  have hrev : s.reverse.head? = some c := by
    rw [List.head?_reverse]; exact hl
  cases hr : s.reverse with
  | nil => simp [hr] at hrev
  | cons x xs =>
    have hx : x = c := by simp [hr] at hrev; exact hrev
    subst hx
    have : trimEnd s = (List.dropWhile isWs (x :: xs)).reverse := by
      rw [trimEnd, hr]
    rw [this, List.dropWhile_cons, h]
    simp only [Bool.false_eq_true, if_false]
    rw [← hr, List.reverse_reverse]

theorem trimStart_nil : trimStart [] = [] := rfl

/-! ### Splitting / joining round trips -/

/-- A line is representable inside a joined document: it contains no newline
and does not end in a carriage return (which `str::lines` would strip). -/
def lineOk (l : Str) : Bool := !l.contains nlc && !strEndsWith crc l

theorem strEndsWith_iff {c : Char} {s : Str} :
    strEndsWith c s = true ↔ s.getLast? = some c := by
  simp [strEndsWith]

theorem getLast?_ne_of_not_mem {l : Str} {c : Char} (h : c ∉ l) :
    l.getLast? ≠ some c := by
  intro hg
  rcases List.mem_getLast?_eq_getLast (Option.mem_def.mpr hg) with ⟨hne, heq⟩
  exact h (by rw [heq]; exact List.getLast_mem hne)

theorem lineOk_iff {l : Str} :
    lineOk l = true ↔ nlc ∉ l ∧ strEndsWith crc l = false := by
  simp [lineOk]

theorem consHead_cons (c : Char) (p : Str) (ps : List Str) :
    consHead c (p :: ps) = (c :: p) :: ps := rfl

theorem splitInclusive_append_nl {l : Str} (rest : Str) (hl : nlc ∉ l) :
    splitInclusive nlc (l ++ nlc :: rest) = (l ++ [nlc]) :: splitInclusive nlc rest := by
  induction l with
  | nil => simp [splitInclusive]
  | cons c cs ih =>
    have hc : ¬(c = nlc) := fun h => hl (by simp [h])
    have hcs : nlc ∉ cs := fun h => hl (by simp [h])
    have hrec := ih hcs
    simp only [List.cons_append, splitInclusive, hc, if_false, List.append_eq,
      hrec, consHead_cons]

theorem splitInclusive_no_nl {l : Str} (hne : l ≠ []) (hl : nlc ∉ l) :
    splitInclusive nlc l = [l] := by
  induction l with
  | nil => exact absurd rfl hne
  | cons c cs ih =>
    have hc : ¬(c = nlc) := fun h => hl (by simp [h])
    have hcs : nlc ∉ cs := fun h => hl (by simp [h])
    simp only [splitInclusive, hc, if_false]
    cases cs with
    | nil => simp [splitInclusive, consHead]
    | cons d ds =>
      rw [ih (by simp) hcs, consHead_cons]

theorem chompLine_append_nl {l : Str} (h : strEndsWith crc l = false) :
    chompLine (l ++ [nlc]) = l := by
  have h1 : strEndsWith nlc (l ++ [nlc]) = true := by simp [strEndsWith]
  simp [chompLine, h1, h, List.dropLast_concat]

theorem chompLine_no_nl {l : Str} (hl : nlc ∉ l) : chompLine l = l := by
  have hend : strEndsWith nlc l = false := by
    cases h : strEndsWith nlc l with
    | false => rfl
    | true => exact absurd (strEndsWith_iff.mp h) (getLast?_ne_of_not_mem hl)
  simp [chompLine, hend]

/-- `rustLines` of a newline-join with a final newline recovers the lines. -/
theorem rustLines_joinNl_nl {L : List Str} (hne : L ≠ [])
    (hok : ∀ l ∈ L, lineOk l = true) :
    rustLines (joinNl L ++ [nlc]) = L := by
  induction L with
  | nil => exact absurd rfl hne
  | cons l ls ih =>
    obtain ⟨hlnl, hlcr⟩ := lineOk_iff.mp (hok l (by simp))
    cases ls with
    | nil =>
      simp only [joinNl, rustLines]
      rw [splitInclusive_append_nl [] hlnl]
      simp [splitInclusive, chompLine_append_nl hlcr]
    | cons l' ls' =>
      have step : joinNl (l :: l' :: ls') ++ [nlc]
          = l ++ nlc :: (joinNl (l' :: ls') ++ [nlc]) := by
        simp [joinNl]
      rw [step, rustLines, splitInclusive_append_nl _ hlnl]
      simp only [List.map_cons]
      rw [chompLine_append_nl hlcr]
      have := ih (by simp) (fun x hx => hok x (by simp [hx]))
      rw [rustLines] at this
      rw [this]

/-- `rustLines` of a newline-join (no trailing newline) recovers the lines,
provided the final line is nonempty. -/
theorem rustLines_joinNl {L : List Str} (hok : ∀ l ∈ L, lineOk l = true)
    (hlast : L.getLast? ≠ some []) :
    rustLines (joinNl L) = L := by
  induction L with
  | nil => rfl
  | cons l ls ih =>
    obtain ⟨hlnl, hlcr⟩ := lineOk_iff.mp (hok l (by simp))
    cases ls with
    | nil =>
      have hne : l ≠ [] := by
        intro h; subst h; simp at hlast
      simp only [joinNl, rustLines]
      rw [splitInclusive_no_nl hne hlnl]
      simp [chompLine_no_nl hlnl]
    | cons l' ls' =>
      simp only [joinNl, rustLines]
      rw [splitInclusive_append_nl _ hlnl]
      simp only [List.map_cons]
      rw [chompLine_append_nl hlcr]
      have := ih (fun x hx => hok x (by simp [hx])) (by
        rw [List.getLast?_cons_cons] at hlast
        exact hlast)
      rw [rustLines] at this
      rw [this]

theorem joinNl_cons_cons (l l' : Str) (ls : List Str) :
    joinNl (l :: l' :: ls) = l ++ nlc :: joinNl (l' :: ls) := rfl

theorem joinNl_append {A B : List Str} (hA : A ≠ []) (hB : B ≠ []) :
    joinNl (A ++ B) = joinNl A ++ nlc :: joinNl B := by
  induction A with
  | nil => exact absurd rfl hA
  | cons a as ih =>
    cases as with
    | nil =>
      cases B with
      | nil => exact absurd rfl hB
      | cons b bs => simp [joinNl_cons_cons, joinNl]
    | cons a' as' =>
      have ihh := ih (by simp)
      have h1 : (a :: a' :: as') ++ B = a :: ((a' :: as') ++ B) := rfl
      obtain ⟨x, xs, hx⟩ : ∃ x xs, (a' :: as') ++ B = x :: xs := ⟨a', as' ++ B, rfl⟩
      rw [h1, hx, joinNl_cons_cons, ← hx, ihh, joinNl_cons_cons]
      simp

/-! ### Date model (chrono `NaiveDate`)

Dates are year/month/day triples; chrono's `NaiveDate` is modelled
extensionally: `from_ymd_opt` checks proleptic-Gregorian validity and chrono's
representable year range, order is lexicographic, and day arithmetic steps one
day at a time with a range check (`checked_add_days` / `checked_sub_days`
succeed exactly when every step stays in range, matching chrono). -/

structure Date where
  y : Int
  m : Nat
  d : Nat
deriving DecidableEq

/-- chrono's proleptic-Gregorian leap-year rule. -/
def isLeapYear (y : Int) : Bool :=
  y % 4 = 0 && (y % 100 ≠ 0 || y % 400 = 0)

def daysInMonth (y : Int) (m : Nat) : Nat :=
  if m = 2 then (if isLeapYear y then 29 else 28)
  else if m = 4 || m = 6 || m = 9 || m = 11 then 30
  else 31

/-- Structural year/month/day validity (proleptic Gregorian). -/
def ymdOk (dt : Date) : Bool :=
  1 ≤ dt.m && dt.m ≤ 12 && 1 ≤ dt.d && dt.d ≤ daysInMonth dt.y dt.m

/-- chrono's representable year range: `MIN_YEAR = i32::MIN >> 13` and
`MAX_YEAR = i32::MAX >> 13`. -/
def minYear : Int := -262144

def maxYear : Int := 262143

def yearOk (y : Int) : Bool := minYear ≤ y && y ≤ maxYear

def dateOk (dt : Date) : Bool := ymdOk dt && yearOk dt.y

/-- chrono `NaiveDate::from_ymd_opt`. -/
def fromYmd (y : Int) (m d : Nat) : Option Date :=
  if dateOk ⟨y, m, d⟩ then some ⟨y, m, d⟩ else none

def dateMin : Date := ⟨minYear, 1, 1⟩

def dateMax : Date := ⟨maxYear, 12, 31⟩

/-- Lexicographic date order (chrono `NaiveDate : Ord`). -/
def dateLtB (a b : Date) : Bool :=
  a.y < b.y || (a.y = b.y && (a.m < b.m || (a.m = b.m && a.d < b.d)))

def dateLeB (a b : Date) : Bool := dateLtB a b || a = b

def succDate (dt : Date) : Date :=
  if dt.d < daysInMonth dt.y dt.m then ⟨dt.y, dt.m, dt.d + 1⟩
  else if dt.m < 12 then ⟨dt.y, dt.m + 1, 1⟩
  else ⟨dt.y + 1, 1, 1⟩

def predDate (dt : Date) : Date :=
  if 1 < dt.d then ⟨dt.y, dt.m, dt.d - 1⟩
  else if 1 < dt.m then ⟨dt.y, dt.m - 1, daysInMonth dt.y (dt.m - 1)⟩
  else ⟨dt.y - 1, 12, 31⟩

/-- chrono `NaiveDate::succ_opt`. -/
def checkedSucc (dt : Date) : Option Date :=
  if dt = dateMax then none else some (succDate dt)

/-- chrono `NaiveDate::pred_opt`. -/
def checkedPred (dt : Date) : Option Date :=
  if dt = dateMin then none else some (predDate dt)

/-- chrono `NaiveDate::checked_add_days` (iterated single-day steps). -/
def checkedAddDays (dt : Date) : Nat → Option Date
  | 0 => some dt
  | n + 1 => (checkedSucc dt).bind (fun dn => checkedAddDays dn n)

/-- chrono `NaiveDate::checked_sub_days`. -/
def checkedSubDays (dt : Date) : Nat → Option Date
  | 0 => some dt
  | n + 1 => (checkedPred dt).bind (fun dn => checkedSubDays dn n)

/-- Day number of a proleptic-Gregorian date relative to 1970-01-01
(civil-from-days formula with floor division). -/
def daysFromCivil (dt : Date) : Int :=
  let yp : Int := if dt.m ≤ 2 then dt.y - 1 else dt.y
  let mp : Int := if dt.m ≤ 2 then (dt.m : Int) + 9 else (dt.m : Int) - 3
  let doy : Int := (153 * mp + 2) / 5 + (dt.d : Int) - 1
  365 * yp + yp / 4 - yp / 100 + yp / 400 + doy - 719468

inductive Weekday where
  | Mon | Tue | Wed | Thu | Fri | Sat | Sun
deriving DecidableEq

/-- chrono `Weekday::num_days_from_monday`. -/
def Weekday.numFromMonday : Weekday → Nat
  | .Mon => 0
  | .Tue => 1
  | .Wed => 2
  | .Thu => 3
  | .Fri => 4
  | .Sat => 5
  | .Sun => 6

def weekdayFromNum (n : Nat) : Weekday :=
  match n % 7 with
  | 0 => .Mon
  | 1 => .Tue
  | 2 => .Wed
  | 3 => .Thu
  | 4 => .Fri
  | 5 => .Sat
  | _ => .Sun

def weekdayNum (dt : Date) : Nat := ((daysFromCivil dt + 3) % 7).toNat

/-- chrono `NaiveDate::weekday` (1970-01-01 was a Thursday). -/
def weekdayOf (dt : Date) : Weekday := weekdayFromNum (weekdayNum dt)

/-! ### Date arithmetic lemmas -/

theorem ymdOk_iff {dt : Date} : ymdOk dt = true ↔
    1 ≤ dt.m ∧ dt.m ≤ 12 ∧ 1 ≤ dt.d ∧ dt.d ≤ daysInMonth dt.y dt.m := by
  simp [ymdOk, and_assoc]

theorem dateLtB_iff {a b : Date} : dateLtB a b = true ↔
    a.y < b.y ∨ (a.y = b.y ∧ (a.m < b.m ∨ (a.m = b.m ∧ a.d < b.d))) := by
  simp [dateLtB]

theorem dateLtB_trans {a b c : Date} (h1 : dateLtB a b = true)
    (h2 : dateLtB b c = true) : dateLtB a c = true := by
  rw [dateLtB_iff] at *
  rcases h1 with h1 | ⟨e1, h1⟩ <;> rcases h2 with h2 | ⟨e2, h2⟩
  · exact Or.inl (h1.trans h2)
  · exact Or.inl (e2 ▸ h1)
  · exact Or.inl (e1 ▸ h2)
  · refine Or.inr ⟨e1.trans e2, ?_⟩
    rcases h1 with h1 | ⟨f1, h1⟩ <;> rcases h2 with h2 | ⟨f2, h2⟩
    · exact Or.inl (h1.trans h2)
    · exact Or.inl (f2 ▸ h1)
    · exact Or.inl (f1 ▸ h2)
    · exact Or.inr ⟨f1.trans f2, h1.trans h2⟩

theorem dateLtB_ne {a b : Date} (h : dateLtB a b = true) : a ≠ b := by
  rw [dateLtB_iff] at h
  intro he
  subst he
  simp at h

theorem daysInMonth_pos (y : Int) (m : Nat) : 1 ≤ daysInMonth y m := by
  rw [daysInMonth]
  split_ifs <;> omega

theorem daysInMonth_dec (y : Int) : daysInMonth y 12 = 31 := by
  simp [daysInMonth]

theorem daysInMonth_jan (y : Int) : daysInMonth y 1 = 31 := by
  simp [daysInMonth]

theorem dateLtB_succ {dt : Date} : dateLtB dt (succDate dt) = true := by
  rw [succDate]
  split_ifs with h1 h2 <;> rw [dateLtB_iff] <;> simp <;> omega

theorem ymdOk_succ {dt : Date} (h : ymdOk dt = true) :
    ymdOk (succDate dt) = true := by
  rw [ymdOk_iff] at h
  rw [succDate]
  split_ifs with h1 h2
  · simp only [ymdOk_iff]
    omega
  · have := daysInMonth_pos dt.y (dt.m + 1)
    simp only [ymdOk_iff]
    omega
  · have := daysInMonth_jan (dt.y + 1)
    simp only [ymdOk_iff]
    omega

theorem daysFromCivil_succ {y : Int} {m d : Nat} (hm1 : 1 ≤ m) (hm2 : m ≤ 12)
    (hd1 : 1 ≤ d) (hd2 : d ≤ daysInMonth y m) :
    daysFromCivil (succDate ⟨y, m, d⟩) = daysFromCivil ⟨y, m, d⟩ + 1 := by
  simp only [succDate]
  split_ifs with h1 h2
  · simp only [daysFromCivil]
    split_ifs with hm
    · push_cast
      omega
    · push_cast
      omega
  · have hd : d = daysInMonth y m := by omega
    subst hd
    have hm2' : m < 12 := h2
    interval_cases m <;>
      simp only [daysFromCivil, daysInMonth, isLeapYear] <;>
      norm_num <;>
      first
      | omega
      | (split_ifs with hleap <;>
         simp only [Bool.and_eq_true, Bool.or_eq_true, decide_eq_true_eq, ne_eq,
           decide_not, Bool.not_eq_true', Bool.not_eq_true] at hleap <;>
         push_cast <;>
         omega)
  · have hm12 : m = 12 := by omega
    subst hm12
    have hd31 : d = 31 := by
      simpa [daysInMonth] using hd2.antisymm (by omega)
    subst hd31
    simp only [daysFromCivil]
    norm_num
    omega

theorem daysFromCivil_succ' {dt : Date} (h : ymdOk dt = true) :
    daysFromCivil (succDate dt) = daysFromCivil dt + 1 := by
  obtain ⟨y, m, d⟩ := dt
  rw [ymdOk_iff] at h
  exact daysFromCivil_succ h.1 h.2.1 h.2.2.1 h.2.2.2

theorem succDate_predDate {dt : Date} (h : ymdOk dt = true) :
    succDate (predDate dt) = dt := by
  obtain ⟨y, m, d⟩ := dt
  rw [ymdOk_iff] at h
  obtain ⟨hm1, hm2, hd1, hd2⟩ := h
  simp only at hm1 hm2 hd1 hd2
  simp only [predDate]
  split_ifs with h1 h2
  · simp only at h1
    simp only [succDate]
    rw [if_pos (show ((⟨y, m, d - 1⟩ : Date)).d < daysInMonth y m from by
      show d - 1 < daysInMonth y m
      omega)]
    simp only [Date.mk.injEq, true_and, and_true]
    omega
  · simp only at h1 h2
    simp only [succDate]
    rw [if_neg (show ¬ ((⟨y, m - 1, daysInMonth y (m - 1)⟩ : Date)).d <
        daysInMonth y (m - 1) from by
      show ¬ daysInMonth y (m - 1) < daysInMonth y (m - 1)
      omega)]
    rw [if_pos (show ((⟨y, m - 1, daysInMonth y (m - 1)⟩ : Date)).m < 12 from by
      show m - 1 < 12
      omega)]
    simp only [Date.mk.injEq, true_and, and_true]
    omega
  · simp only at h1 h2
    have hm : m = 1 := by omega
    have hd : d = 1 := by omega
    subst hm
    subst hd
    simp only [succDate]
    rw [if_neg (show ¬ ((⟨y - 1, 12, 31⟩ : Date)).d <
        daysInMonth ((⟨y - 1, 12, 31⟩ : Date)).y ((⟨y - 1, 12, 31⟩ : Date)).m from by
      show ¬ (31 : Nat) < daysInMonth (y - 1) 12
      rw [daysInMonth_dec]
      omega)]
    rw [if_neg (show ¬ ((⟨y - 1, 12, 31⟩ : Date)).m < 12 from by
      show ¬ (12 : Nat) < 12
      omega)]
    simp only [Date.mk.injEq, true_and, and_true]
    omega

theorem ymdOk_pred {dt : Date} (h : ymdOk dt = true) :
    ymdOk (predDate dt) = true := by
  rw [ymdOk_iff] at h
  rw [predDate]
  split_ifs with h1 h2
  · simp only [ymdOk_iff]
    omega
  · have := daysInMonth_pos dt.y (dt.m - 1)
    simp only [ymdOk_iff]
    omega
  · have := daysInMonth_dec (dt.y - 1)
    simp only [ymdOk_iff]
    omega

theorem daysFromCivil_pred {dt : Date} (h : ymdOk dt = true) :
    daysFromCivil (predDate dt) = daysFromCivil dt - 1 := by
  have h1 := daysFromCivil_succ' (ymdOk_pred h)
  rw [succDate_predDate h] at h1
  omega

theorem dateLtB_pred {dt : Date} (h : ymdOk dt = true) :
    dateLtB (predDate dt) dt = true := by
  rw [ymdOk_iff] at h
  rw [predDate]
  split_ifs with h1 h2
  · rw [dateLtB_iff]
    exact Or.inr ⟨rfl, Or.inr ⟨rfl, by show dt.d - 1 < dt.d; omega⟩⟩
  · rw [dateLtB_iff]
    exact Or.inr ⟨rfl, Or.inl (by show dt.m - 1 < dt.m; omega)⟩
  · rw [dateLtB_iff]
    exact Or.inl (by show dt.y - 1 < dt.y; omega)

theorem dateOk_succ {dt : Date} (h : dateOk dt = true) (hne : dt ≠ dateMax) :
    dateOk (succDate dt) = true := by
  simp only [dateOk, Bool.and_eq_true] at h
  obtain ⟨hymd, hyear⟩ := h
  simp only [dateOk, Bool.and_eq_true]
  refine ⟨ymdOk_succ hymd, ?_⟩
  rw [ymdOk_iff] at hymd
  simp only [yearOk, Bool.and_eq_true, decide_eq_true_eq] at hyear ⊢
  simp only [succDate]
  split_ifs with h1 h2
  · exact hyear
  · exact hyear
  · show minYear ≤ dt.y + 1 ∧ dt.y + 1 ≤ maxYear
    have hm : dt.m = 12 := by omega
    have hd : dt.d = 31 := by
      have h31 := daysInMonth_dec dt.y
      have hub := hymd.2.2.2
      rw [hm] at h1 hub
      omega
    have hy : dt.y ≠ maxYear := by
      intro hy
      exact hne (by
        obtain ⟨a, b, c⟩ := dt
        simp only at hm hd hy
        simp [dateMax, hm, hd, hy])
    simp only [minYear, maxYear] at hyear hy ⊢
    omega

theorem dateOk_pred {dt : Date} (h : dateOk dt = true) (hne : dt ≠ dateMin) :
    dateOk (predDate dt) = true := by
  simp only [dateOk, Bool.and_eq_true] at h
  obtain ⟨hymd, hyear⟩ := h
  simp only [dateOk, Bool.and_eq_true]
  refine ⟨ymdOk_pred hymd, ?_⟩
  rw [ymdOk_iff] at hymd
  simp only [yearOk, Bool.and_eq_true, decide_eq_true_eq] at hyear ⊢
  simp only [predDate]
  split_ifs with h1 h2
  · exact hyear
  · exact hyear
  · show minYear ≤ dt.y - 1 ∧ dt.y - 1 ≤ maxYear
    have hm : dt.m = 1 := by omega
    have hd : dt.d = 1 := by omega
    have hy : dt.y ≠ minYear := by
      intro hy
      exact hne (by
        obtain ⟨a, b, c⟩ := dt
        simp only at hm hd hy
        simp [dateMin, hm, hd, hy])
    simp only [minYear, maxYear] at hyear hy ⊢
    omega

theorem checkedAddDays_spec : ∀ (n : Nat) {dt r : Date}, dateOk dt = true →
    checkedAddDays dt n = some r →
    dateOk r = true ∧ daysFromCivil r = daysFromCivil dt + n ∧
      (1 ≤ n → dateLtB dt r = true) := by
  intro n
  induction n with
  | zero =>
    intro dt r hok h
    simp only [checkedAddDays] at h
    cases h
    exact ⟨hok, by omega, by omega⟩
  | succ k ih =>
    intro dt r hok h
    simp only [checkedAddDays, checkedSucc] at h
    split_ifs at h with hmax
    · simp at h
    · simp only [Option.some_bind] at h
      have hok1 : dateOk (succDate dt) = true := dateOk_succ hok hmax
      obtain ⟨hr, hdays, hlt⟩ := ih hok1 h
      have hymd : ymdOk dt = true := by
        simp only [dateOk, Bool.and_eq_true] at hok
        exact hok.1
      refine ⟨hr, ?_, ?_⟩
      · rw [hdays, daysFromCivil_succ' hymd]
        push_cast
        omega
      · intro _
        rcases Nat.eq_zero_or_pos k with hk | hk
        · subst hk
          simp only [checkedAddDays] at h
          cases h
          exact dateLtB_succ
        · exact dateLtB_trans dateLtB_succ (hlt hk)

theorem checkedSubDays_spec : ∀ (n : Nat) {dt r : Date}, dateOk dt = true →
    checkedSubDays dt n = some r →
    dateOk r = true ∧ daysFromCivil r = daysFromCivil dt - n ∧
      (1 ≤ n → dateLtB r dt = true) := by
  intro n
  induction n with
  | zero =>
    intro dt r hok h
    simp only [checkedSubDays] at h
    cases h
    exact ⟨hok, by omega, by omega⟩
  | succ k ih =>
    intro dt r hok h
    simp only [checkedSubDays, checkedPred] at h
    split_ifs at h with hmin
    · simp at h
    · simp only [Option.some_bind] at h
      have hok1 : dateOk (predDate dt) = true := dateOk_pred hok hmin
      have hymd : ymdOk dt = true := by
        simp only [dateOk, Bool.and_eq_true] at hok
        exact hok.1
      obtain ⟨hr, hdays, hlt⟩ := ih hok1 h
      refine ⟨hr, ?_, ?_⟩
      · rw [hdays, daysFromCivil_pred hymd]
        push_cast
        omega
      · intro _
        rcases Nat.eq_zero_or_pos k with hk | hk
        · subst hk
          simp only [checkedSubDays] at h
          cases h
          exact dateLtB_pred hymd
        · exact dateLtB_trans (hlt hk) (dateLtB_pred hymd)

/-! ### Entry model (`storage.rs` lines 165-277; `storage/entries.rs` has an
identical copy of the same types and functions) -/

inductive EntryType where
  | Task (completed : Bool)
  | Note
  | Event
deriving DecidableEq

/-- `EntryType::prefix` (the fixed textual markers). -/
def EntryType.prefixText : EntryType → Str
  | .Task false => litS "- [ ] "
  | .Task true => litS "- [x] "
  | .Note => litS "- "
  | .Event => litS "* "

/-- `EntryType::cycle`. -/
def EntryType.cycle : EntryType → EntryType
  | .Task _ => .Note
  | .Note => .Event
  | .Event => .Task false

structure Entry where
  entry_type : EntryType
  content : Str
deriving DecidableEq

/-- `Entry::toggle_complete` (only affects `Task`). -/
def Entry.toggle_complete (e : Entry) : Entry :=
  match e.entry_type with
  | .Task c => ⟨.Task (!c), e.content⟩
  | t => ⟨t, e.content⟩

inductive Line where
  | Entry (e : Entry)
  | Raw (s : Str)
deriving DecidableEq

/-- `parse_line` (`storage.rs:224`): try the four fixed markers, in order,
against the line after stripping leading whitespace; no match gives
`Raw(original line)`. -/
def parse_line (line : Str) : Line :=
  let trimmed := trimStart line
  match stripPref (litS "- [ ] ") trimmed with
  | some content => .Entry ⟨.Task false, content⟩
  | none =>
  match stripPref (litS "- [x] ") trimmed with
  | some content => .Entry ⟨.Task true, content⟩
  | none =>
  match stripPref (litS "* ") trimmed with
  | some content => .Entry ⟨.Event, content⟩
  | none =>
  match stripPref (litS "- ") trimmed with
  | some content => .Entry ⟨.Note, content⟩
  | none => .Raw line

/-- `parse_lines`. -/
def parse_lines (content : Str) : List Line := (rustLines content).map parse_line

/-- `serialize_line`. -/
def serialize_line : Line → Str
  | .Entry e => e.entry_type.prefixText ++ e.content
  | .Raw s => s

/-- `serialize_lines`. -/
def serialize_lines (lines : List Line) : Str := joinNl (lines.map serialize_line)

/-- The line starts (at column zero) with one of the four recognized markers. -/
def hasEntryMarker (l : Str) : Bool :=
  hasPref (litS "- [ ] ") l || hasPref (litS "- [x] ") l ||
  hasPref (litS "* ") l || hasPref (litS "- ") l

/-- The parser classifies the line as `Raw` (blank lines included). -/
def parsesRaw (l : Str) : Bool := !hasEntryMarker (trimStart l)

/-- The class of lines for which the spec asserts the byte-for-byte round
trip: column-zero marker lines, raw lines, and blank lines (blank lines are a
special case of raw lines). -/
def goodLine (l : Str) : Bool := hasEntryMarker l || parsesRaw l

theorem stripPref_head {p : Char} {ps : Str} {c : Char} {cs : Str}
    (h : (stripPref (p :: ps) (c :: cs)).isSome = true) : p = c := by
  by_cases hpc : p = c
  · exact hpc
  · simp [stripPref, hpc] at h

theorem trimStart_of_marker {l : Str} (h : hasEntryMarker l = true) :
    trimStart l = l := by
  cases l with
  | nil => rfl
  | cons c cs =>
    apply trimStart_cons_of_not_ws
    simp only [hasEntryMarker, Bool.or_eq_true] at h
    rcases h with ((h | h) | h) | h <;>
      rw [← stripPref_head h] <;> decide

theorem parse_line_of_marker {l : Str} (h : hasEntryMarker (trimStart l) = true) :
    (∃ e, parse_line l = Line.Entry e) ∧
    serialize_line (parse_line l) = trimStart l := by
  simp only [parse_line]
  cases h1 : stripPref (litS "- [ ] ") (trimStart l) with
  | some r =>
    refine ⟨⟨_, rfl⟩, ?_⟩
    rw [stripPref_eq_some.mp h1]
    rfl
  | none =>
  cases h2 : stripPref (litS "- [x] ") (trimStart l) with
  | some r =>
    refine ⟨⟨_, rfl⟩, ?_⟩
    rw [stripPref_eq_some.mp h2]
    rfl
  | none =>
  cases h3 : stripPref (litS "* ") (trimStart l) with
  | some r =>
    refine ⟨⟨_, rfl⟩, ?_⟩
    rw [stripPref_eq_some.mp h3]
    rfl
  | none =>
  cases h4 : stripPref (litS "- ") (trimStart l) with
  | some r =>
    refine ⟨⟨_, rfl⟩, ?_⟩
    rw [stripPref_eq_some.mp h4]
    rfl
  | none =>
    exfalso
    simp [hasEntryMarker, hasPref, h1, h2, h3, h4] at h

theorem hasPref_false {p s : Str} (h : hasPref p s = false) :
    stripPref p s = none := by
  simp only [hasPref] at h
  cases e : stripPref p s with
  | none => rfl
  | some r => rw [e] at h; simp at h

theorem parse_line_of_raw {l : Str} (h : parsesRaw l = true) :
    parse_line l = Line.Raw l := by
  simp only [parsesRaw, Bool.not_eq_true', hasEntryMarker,
    Bool.or_eq_false_iff] at h
  obtain ⟨⟨⟨h1, h2⟩, h3⟩, h4⟩ := h
  simp only [parse_line, hasPref_false h1, hasPref_false h2, hasPref_false h3,
    hasPref_false h4]

theorem roundtrip_line_good {l : Str} (h : goodLine l = true) :
    serialize_line (parse_line l) = l := by
  simp only [goodLine, Bool.or_eq_true] at h
  rcases h with h | h
  · have ht := trimStart_of_marker h
    have hr := (parse_line_of_marker (by rw [ht]; exact h)).2
    rw [ht] at hr
    exact hr
  · rw [parse_line_of_raw h]
    rfl

/-- Claim C1: for every string `s` composed only of lines bearing one of the
four recognized markers (at column zero), raw lines, and blank lines — that
is, a newline-join of `goodLine`s, without a trailing line terminator —
`serialize_lines (parse_lines s) = s`. -/
theorem c1_round_trip (L : List Str) (hok : ∀ l ∈ L, lineOk l = true)
    (hgood : ∀ l ∈ L, goodLine l = true) (hlast : L.getLast? ≠ some []) :
    serialize_lines (parse_lines (joinNl L)) = joinNl L := by
  unfold serialize_lines parse_lines
  rw [rustLines_joinNl hok hlast, List.map_map]
  congr 1
  have : ∀ l ∈ L, (serialize_line ∘ parse_line) l = id l := by
    intro l hl
    exact roundtrip_line_good (hgood l hl)
  rw [List.map_congr_left this, List.map_id]

def exC1Lines : List Str :=
  [litS "- [ ] Task one", litS "- [x] Task done", litS "- A note",
   litS "* An event", litS "", litS "Raw line"]

theorem c1_round_trip_witness :
    (∀ l ∈ exC1Lines, lineOk l = true) ∧ (∀ l ∈ exC1Lines, goodLine l = true) ∧
    exC1Lines.getLast? ≠ some [] ∧
    serialize_lines (parse_lines (joinNl exC1Lines)) = joinNl exC1Lines :=
  ⟨by decide, by decide, by decide,
   c1_round_trip exC1Lines (by decide) (by decide) (by decide)⟩

/-- Claim C10: a line made of leading whitespace followed by a recognized
marker parses as an `Entry`, and serializing the parse yields the line with
its leading whitespace removed — so the byte-for-byte round trip fails
exactly for indented entry lines, while `Raw` lines are preserved verbatim. -/
theorem c10_indented_entries (ws rest : Str) (hws : ∀ c ∈ ws, isWs c = true)
    (hmark : hasEntryMarker rest = true) :
    (∃ e, parse_line (ws ++ rest) = Line.Entry e) ∧
    serialize_line (parse_line (ws ++ rest)) = rest ∧
    (ws ≠ [] → serialize_line (parse_line (ws ++ rest)) ≠ ws ++ rest) ∧
    (∀ l : Str, parsesRaw l = true → serialize_line (parse_line l) = l) := by
  have ht : trimStart (ws ++ rest) = rest := by
    rw [trimStart_append_ws rest hws, trimStart_of_marker hmark]
  have hm : hasEntryMarker (trimStart (ws ++ rest)) = true := by
    rw [ht]; exact hmark
  obtain ⟨he, hs⟩ := parse_line_of_marker hm
  rw [ht] at hs
  refine ⟨he, hs, ?_, ?_⟩
  · intro hne
    rw [hs]
    intro hcontra
    have : (ws ++ rest).length = rest.length := by rw [← hcontra]
    simp at this
    exact hne this
  · intro l hl
    rw [parse_line_of_raw hl]
    rfl

theorem c10_indented_entries_witness :
    (∀ c ∈ litS "  ", isWs c = true) ∧
    hasEntryMarker (litS "- [ ] pay rent") = true ∧
    serialize_line (parse_line (litS "  " ++ litS "- [ ] pay rent")) =
      litS "- [ ] pay rent" ∧
    serialize_line (parse_line (litS "  " ++ litS "- [ ] pay rent")) ≠
      litS "  " ++ litS "- [ ] pay rent" :=
  ⟨by decide, by decide,
   (c10_indented_entries (litS "  ") (litS "- [ ] pay rent")
     (by decide) (by decide)).2.1,
   (c10_indented_entries (litS "  ") (litS "- [ ] pay rent")
     (by decide) (by decide)).2.2.1 (by decide)⟩

/-! ### Numeric parsing and formatting -/

def digitVal (c : Char) : Nat := c.toNat - '0'.toNat

def natOfDigits (ds : Str) : Nat := ds.foldl (fun a c => a * 10 + digitVal c) 0

/-- Rust `str::parse::<u32>`: optional leading `+`, one or more ASCII digits,
value in `u32` range. -/
def parseU32 (s : Str) : Option Nat :=
  let t := match s with
    | '+' :: r => r
    | _ => s
  if t ≠ [] ∧ t.all isAsciiDigit = true ∧ natOfDigits t ≤ 4294967295 then
    some (natOfDigits t)
  else none

/-- Rust `str::parse::<u64>`. -/
def parseU64 (s : Str) : Option Nat :=
  let t := match s with
    | '+' :: r => r
    | _ => s
  if t ≠ [] ∧ t.all isAsciiDigit = true ∧ natOfDigits t ≤ 18446744073709551615 then
    some (natOfDigits t)
  else none

/-- Rust `str::parse::<i32>`: optional sign, digits, `i32` range. -/
def parseI32 (s : Str) : Option Int :=
  let st : Int × Str := match s with
    | '+' :: r => (1, r)
    | '-' :: r => (-1, r)
    | _ => (1, s)
  let v : Int := st.1 * (natOfDigits st.2 : Int)
  if st.2 ≠ [] ∧ st.2.all isAsciiDigit = true ∧ -2147483648 ≤ v ∧ v ≤ 2147483647 then
    some v
  else none

/-- chrono `parse_from_str` with format `"%Y/%m/%d"`: optionally signed greedy
year digits, `/`, one or two month digits, `/`, one or two day digits, end of
input; then `from_ymd_opt` validity. -/
def chronoParseYmd (s : Str) : Option Date :=
  let st : Int × Str := match s with
    | '+' :: r => (1, r)
    | '-' :: r => (-1, r)
    | _ => (1, s)
  let yds := st.2.takeWhile isAsciiDigit
  let rest1 := st.2.dropWhile isAsciiDigit
  if yds = [] then none
  else
    match rest1 with
    | '/' :: rest2 =>
      let mds := rest2.takeWhile isAsciiDigit
      let rest3 := rest2.dropWhile isAsciiDigit
      if mds.length = 0 ∨ 2 < mds.length then none
      else
        match rest3 with
        | '/' :: rest4 =>
          let dds := rest4.takeWhile isAsciiDigit
          let rest5 := rest4.dropWhile isAsciiDigit
          if dds.length = 0 ∨ 2 < dds.length ∨ rest5 ≠ [] then none
          else fromYmd (st.1 * (natOfDigits yds : Int)) (natOfDigits mds) (natOfDigits dds)
        | _ => none
    | _ => none

def natDigitsRev : Nat → Nat → Str
  | 0, _ => []
  | f + 1, n => if n = 0 then [] else Char.ofNat ('0'.toNat + n % 10) :: natDigitsRev f (n / 10)

def natStr (n : Nat) : Str := if n = 0 then ['0'] else (natDigitsRev (n + 1) n).reverse

def natPad (w n : Nat) : Str :=
  List.replicate (w - (natStr n).length) '0' ++ natStr n

/-- chrono `format("%Y/%m/%d")`: year zero-padded to 4 digits (`-` sign for
negative years), month and day zero-padded to 2. -/
def formatYmd (dt : Date) : Str :=
  (if dt.y < 0 then '-' :: natPad 4 (-dt.y).toNat else natPad 4 dt.y.toNat) ++
  '/' :: natPad 2 dt.m ++ '/' :: natPad 2 dt.d

/-! ### Day headers and date resolvers (`storage.rs`) -/

/-- `day_header`. -/
def day_header (dt : Date) : Str := '#' :: ' ' :: formatYmd dt

/-- `parse_day_header` (`storage.rs:386`). -/
def parse_day_header (line : Str) : Option Date :=
  match stripPref (litS "# ") line with
  | none => none
  | some rest => if rest.length < 10 then none else chronoParseYmd (rest.take 10)

/-- `is_day_header`. -/
def is_day_header (line : Str) : Bool := (parse_day_header line).isSome

/-- `parse_later_date` (`storage.rs:614`): `YYYY/MM/DD` (first segment exactly
4 digits) else `MM/DD/YYYY` / `MM/DD/YY` (2-digit year gets 2000 added) else
`MM/DD` with the "always future" policy. -/
def parse_later_date (date_str : Str) (today : Date) : Option Date :=
  let b1 : Option Date :=
    match findCharIdx '/' date_str with
    | some first_slash =>
      if first_slash = 4 ∧ (date_str.take 4).all isAsciiDigit = true then
        chronoParseYmd date_str
      else none
    | none => none
  match b1 with
  | some date => some date
  | none =>
    let b2 : Option Date :=
      if countChar '/' date_str = 2 then
        match splitOnChar '/' date_str with
        | [p0, p1, p2] =>
          match parseU32 p0, parseU32 p1, parseI32 p2 with
          | some month, some day, some year =>
            let full_year := if year < 100 then 2000 + year else year
            fromYmd full_year month day
          | _, _, _ => none
        | _ => none
      else none
    match b2 with
    | some date => some date
    | none =>
      match splitOnChar '/' date_str with
      | [p0, p1] =>
        match parseU32 p0, parseU32 p1 with
        | some month, some day =>
          match fromYmd today.y month day with
          | some date =>
            if dateLtB date today then fromYmd (today.y + 1) month day
            else some date
          | none => none
        | _, _ => none
      | _ => none

/-- `parse_date_prefer_past` (`storage.rs:823`): explicit-year formats go to
`parse_later_date`; `MM/DD` prefers the most recent past occurrence. -/
def parse_date_prefer_past (date_str : Str) (today : Date) : Option Date :=
  if countChar '/' date_str = 2 then parse_later_date date_str today
  else
    match splitOnChar '/' date_str with
    | [p0, p1] =>
      match parseU32 p0, parseU32 p1 with
      | some month, some day =>
        match fromYmd today.y month day with
        | some date =>
          if dateLeB date today then some date
          else fromYmd (today.y - 1) month day
        | none => none
      | _, _ => none
    | _ => none

/-- Rust `char::to_lowercase` as used here, modelled on the ASCII range
(non-ASCII characters pass through; every string these functions lowercase in
the claims below is ASCII). -/
def toLowerChar (c : Char) : Char :=
  if 'A' ≤ c ∧ c ≤ 'Z' then Char.ofNat (c.toNat + 32) else c

def strToLower (s : Str) : Str := s.map toLowerChar

/-- `parse_weekday` (`storage.rs:661`). -/
def parse_weekday (s : Str) : Option Weekday :=
  let t := strToLower s
  if t = litS "monday" ∨ t = litS "mon" then some .Mon
  else if t = litS "tuesday" ∨ t = litS "tue" then some .Tue
  else if t = litS "wednesday" ∨ t = litS "wed" then some .Wed
  else if t = litS "thursday" ∨ t = litS "thu" then some .Thu
  else if t = litS "friday" ∨ t = litS "fri" then some .Fri
  else if t = litS "saturday" ∨ t = litS "sat" then some .Sat
  else if t = litS "sunday" ∨ t = litS "sun" then some .Sun
  else none

/-- `next_weekday_from` (`storage.rs:676`). -/
def next_weekday_from (today : Date) (target : Weekday) : Option Date :=
  let today_wd := (weekdayOf today).numFromMonday
  let target_wd := target.numFromMonday
  let days_ahead := if today_wd < target_wd then target_wd - today_wd
    else 7 - today_wd + target_wd
  let days_ahead := if days_ahead = 0 then 7 else days_ahead
  checkedAddDays today days_ahead

/-- `prev_weekday_from` (`storage.rs:692`). -/
def prev_weekday_from (today : Date) (target : Weekday) : Option Date :=
  let today_wd := (weekdayOf today).numFromMonday
  let target_wd := target.numFromMonday
  let days_back := if target_wd < today_wd then today_wd - target_wd
    else 7 - target_wd + today_wd
  let days_back := if days_back = 0 then 7 else days_back
  checkedSubDays today days_back

def stripSuffixChar (c : Char) (s : Str) : Option Str :=
  if strEndsWith c s then some s.dropLast else none

/-- Fallback chain of `parse_natural_date` after the `next-`/`last-` checks. -/
def pndWeekdayLast (input_lower input : Str) (today : Date) : Option Date :=
  match stripPref (litS "last-") input_lower with
  | some weekday_str =>
    match parse_weekday weekday_str with
    | some target => prev_weekday_from today target
    | none => parse_later_date input today
  | none => parse_later_date input today

/-- Fallback chain of `parse_natural_date` after the `Xd`/`-Xd` check. -/
def pndWeekdayNext (input_lower input : Str) (today : Date) : Option Date :=
  match stripPref (litS "next-") input_lower with
  | some weekday_str =>
    match parse_weekday weekday_str with
    | some target => next_weekday_from today target
    | none => pndWeekdayLast input_lower input today
  | none => pndWeekdayLast input_lower input today

/-- `parse_natural_date` (`storage.rs:710`). -/
def parse_natural_date (input : Str) (today : Date) : Option Date :=
  let input_lower := strToLower input
  if input_lower = litS "tomorrow" then checkedAddDays today 1
  else if input_lower = litS "yesterday" then checkedSubDays today 1
  else
    match stripSuffixChar 'd' input_lower with
    | some days_str =>
      match days_str with
      | '-' :: neg_days_str =>
        match parseU64 neg_days_str with
        | some days =>
          if 0 < days then checkedSubDays today days
          else pndWeekdayNext input_lower input today
        | none => pndWeekdayNext input_lower input today
      | _ =>
        match parseU64 days_str with
        | some days =>
          if 0 < days then checkedAddDays today days
          else pndWeekdayNext input_lower input today
        | none => pndWeekdayNext input_lower input today
    | none => pndWeekdayNext input_lower input today

/-! ### Lemmas about `/`-splitting for the MM/DD resolvers -/

theorem findCharIdx_append_cons (c : Char) (s1 s2 : Str) (h : c ∉ s1) :
    findCharIdx c (s1 ++ c :: s2) = some s1.length := by
  induction s1 with
  | nil => simp [findCharIdx]
  | cons x xs ih =>
    have hx : ¬(x = c) := fun he => h (by simp [he])
    have hxs : c ∉ xs := fun he => h (by simp [he])
    simp only [List.cons_append, findCharIdx, hx, if_false, List.append_eq,
      ih hxs, List.length_cons]
    rfl

theorem countChar_append_cons (c : Char) (s1 s2 : Str) (h1 : c ∉ s1)
    (h2 : c ∉ s2) : countChar c (s1 ++ c :: s2) = 1 := by
  simp [countChar, List.count_append, List.count_cons,
    List.count_eq_zero.mpr h1, List.count_eq_zero.mpr h2]

theorem splitOnChar_no {c : Char} {s : Str} (h : c ∉ s) :
    splitOnChar c s = [s] := by
  induction s with
  | nil => rfl
  | cons x xs ih =>
    have hx : ¬(x = c) := fun he => h (by simp [he])
    have hxs : c ∉ xs := fun he => h (by simp [he])
    simp only [splitOnChar, hx, if_false, ih hxs, consHead_cons]

theorem splitOnChar_append_cons (c : Char) (s1 s2 : Str) (h1 : c ∉ s1)
    (h2 : c ∉ s2) : splitOnChar c (s1 ++ c :: s2) = [s1, s2] := by
  induction s1 with
  | nil => simp [splitOnChar, splitOnChar_no h2]
  | cons x xs ih =>
    have hx : ¬(x = c) := fun he => h1 (by simp [he])
    have hxs : c ∉ xs := fun he => h1 (by simp [he])
    simp only [List.cons_append, splitOnChar, hx, if_false, List.append_eq,
      ih hxs, consHead_cons]

/-- Claim C5: `parse_later_date` on a year-free `MM/DD` string forms the date
in `today`'s year and, when that date has already passed relative to `today`,
rolls it to the next year. -/
theorem c5_always_future_mmdd (today : Date) (s1 s2 : Str) (m d : Nat)
    (date : Date) (h1 : '/' ∉ s1) (h2 : '/' ∉ s2) (hlen : s1.length ≤ 2)
    (hm : parseU32 s1 = some m) (hd : parseU32 s2 = some d)
    (hdate : fromYmd today.y m d = some date) :
    parse_later_date (s1 ++ '/' :: s2) today =
      if dateLtB date today then fromYmd (today.y + 1) m d else some date := by
  have hg1 : ¬(s1.length = 4 ∧ ((s1 ++ '/' :: s2).take 4).all isAsciiDigit = true) :=
    fun hc => absurd hc.1 (by omega)
  unfold parse_later_date
  rw [findCharIdx_append_cons '/' s1 s2 h1]
  simp only [if_neg hg1, countChar_append_cons '/' s1 s2 h1 h2,
    if_neg (show ¬((1 : Nat) = 2) by decide),
    splitOnChar_append_cons '/' s1 s2 h1 h2, hm, hd, hdate]

/-- Claim C6: the "prefer past" `MM/DD` resolver used for overdue detection
keeps the current-year date when it is not in the future, and otherwise rolls
to the previous year. -/
theorem c6_prefer_past_mmdd (today : Date) (s1 s2 : Str) (m d : Nat)
    (date : Date) (h1 : '/' ∉ s1) (h2 : '/' ∉ s2)
    (hm : parseU32 s1 = some m) (hd : parseU32 s2 = some d)
    (hdate : fromYmd today.y m d = some date) :
    parse_date_prefer_past (s1 ++ '/' :: s2) today =
      if dateLeB date today then some date else fromYmd (today.y - 1) m d := by
  unfold parse_date_prefer_past
  simp only [countChar_append_cons '/' s1 s2 h1 h2,
    if_neg (show ¬((1 : Nat) = 2) by decide),
    splitOnChar_append_cons '/' s1 s2 h1 h2, hm, hd, hdate]

def dToday26 : Date := ⟨2026, 1, 5⟩

theorem c5_always_future_mmdd_witness :
    parse_later_date (litS "12/25") dToday26 = some ⟨2026, 12, 25⟩ ∧
    parse_later_date (litS "01/01") dToday26 = some ⟨2027, 1, 1⟩ := by
  constructor
  · have h := c5_always_future_mmdd dToday26 (litS "12") (litS "25") 12 25
      ⟨2026, 12, 25⟩ (by decide) (by decide) (by decide) (by decide) (by decide)
      (by decide)
    have e : litS "12" ++ '/' :: litS "25" = litS "12/25" := by decide
    rw [e] at h
    rw [h]
    decide
  · have h := c5_always_future_mmdd dToday26 (litS "01") (litS "01") 1 1
      ⟨2026, 1, 1⟩ (by decide) (by decide) (by decide) (by decide) (by decide)
      (by decide)
    have e : litS "01" ++ '/' :: litS "01" = litS "01/01" := by decide
    rw [e] at h
    rw [h]
    decide

theorem c6_prefer_past_mmdd_witness :
    parse_date_prefer_past (litS "12/30") dToday26 = some ⟨2025, 12, 30⟩ := by
  have h := c6_prefer_past_mmdd dToday26 (litS "12") (litS "30") 12 30
    ⟨2026, 12, 30⟩ (by decide) (by decide) (by decide) (by decide) (by decide)
  have e : litS "12" ++ '/' :: litS "30" = litS "12/30" := by decide
  rw [e] at h
  rw [h]
  decide

/-! ### Weekday lemmas and claim C9 -/

theorem numFromMonday_lt (w : Weekday) : w.numFromMonday < 7 := by
  cases w <;> decide

theorem weekdayNum_lt (dt : Date) : weekdayNum dt < 7 := by
  unfold weekdayNum
  omega

theorem numFromMonday_weekdayFromNum (k : Nat) :
    (weekdayFromNum k).numFromMonday = k % 7 := by
  have h7 : k % 7 < 7 := Nat.mod_lt _ (by omega)
  obtain ⟨v, hv, he⟩ : ∃ v, v < 7 ∧ k % 7 = v := ⟨k % 7, h7, rfl⟩
  unfold weekdayFromNum
  rw [he]
  interval_cases v <;> rfl

theorem weekdayFromNum_numFromMonday (w : Weekday) :
    weekdayFromNum w.numFromMonday = w := by
  cases w <;> rfl

/-- Claim C9: for every in-range date and target weekday, `next_weekday_from`
returns (when chrono's range allows) a date strictly after today with the
target weekday, at most 7 days ahead, and exactly 7 days ahead when the
target equals today's weekday; `prev_weekday_from` is symmetric going
backwards. Neither ever returns today. -/
theorem c9_weekday_resolvers (today : Date) (target : Weekday)
    (hok : dateOk today = true) :
    (∀ r, next_weekday_from today target = some r →
      dateLtB today r = true ∧ r ≠ today ∧ weekdayOf r = target ∧
      ∃ n, 1 ≤ n ∧ n ≤ 7 ∧ checkedAddDays today n = some r ∧
        (weekdayOf today = target → n = 7)) ∧
    (∀ r, prev_weekday_from today target = some r →
      dateLtB r today = true ∧ r ≠ today ∧ weekdayOf r = target ∧
      ∃ n, 1 ≤ n ∧ n ≤ 7 ∧ checkedSubDays today n = some r ∧
        (weekdayOf today = target → n = 7)) := by
  constructor
  · intro r h
    simp only [next_weekday_from] at h
    set tw := (weekdayOf today).numFromMonday with htw
    set tg := Weekday.numFromMonday target with htg
    set da0 := if tw < tg then tg - tw else 7 - tw + tg with hda0
    set da := if da0 = 0 then 7 else da0 with hda
    have htww : tw < 7 := numFromMonday_lt _
    have htgg : tg < 7 := numFromMonday_lt _
    have hda17 : 1 ≤ da ∧ da ≤ 7 := by
      rw [hda, hda0]
      split_ifs <;> omega
    obtain ⟨hrok, hdays, hltn⟩ := checkedAddDays_spec da hok h
    have hlt : dateLtB today r = true := hltn (by omega)
    have htw_eq : tw = weekdayNum today := by
      rw [htw]
      unfold weekdayOf
      rw [numFromMonday_weekdayFromNum]
      exact Nat.mod_eq_of_lt (weekdayNum_lt today)
    have hwr : weekdayNum r = tg := by
      have e1 : weekdayNum r = ((daysFromCivil today + da + 3) % 7).toNat := by
        unfold weekdayNum
        rw [hdays]
      have e2 : tw = ((daysFromCivil today + 3) % 7).toNat := htw_eq
      have hdisj : (tw < tg ∧ da = tg - tw) ∨ (tg ≤ tw ∧ da = 7 - tw + tg) := by
        by_cases hc : tw < tg
        · refine Or.inl ⟨hc, ?_⟩
          rw [hda, hda0, if_pos hc, if_neg (by omega)]
        · refine Or.inr ⟨by omega, ?_⟩
          rw [hda, hda0, if_neg hc]
          split_ifs with h0 <;> omega
      rcases hdisj with ⟨hc, hde⟩ | ⟨hc, hde⟩ <;> (rw [hde] at e1; omega)
    refine ⟨hlt, (dateLtB_ne hlt).symm, ?_, da, hda17.1, hda17.2, h, ?_⟩
    · rw [weekdayOf, hwr, htg]
      exact weekdayFromNum_numFromMonday target
    · intro he
      have hteq : tw = tg := by rw [htw, htg, he]
      rw [hda, hda0]
      split_ifs <;> omega
  · intro r h
    simp only [prev_weekday_from] at h
    set tw := (weekdayOf today).numFromMonday with htw
    set tg := Weekday.numFromMonday target with htg
    set db0 := if tg < tw then tw - tg else 7 - tg + tw with hdb0
    set db := if db0 = 0 then 7 else db0 with hdb
    have htww : tw < 7 := numFromMonday_lt _
    have htgg : tg < 7 := numFromMonday_lt _
    have hdb17 : 1 ≤ db ∧ db ≤ 7 := by
      rw [hdb, hdb0]
      split_ifs <;> omega
    obtain ⟨hrok, hdays, hltn⟩ := checkedSubDays_spec db hok h
    have hlt : dateLtB r today = true := hltn (by omega)
    have htw_eq : tw = weekdayNum today := by
      rw [htw]
      unfold weekdayOf
      rw [numFromMonday_weekdayFromNum]
      exact Nat.mod_eq_of_lt (weekdayNum_lt today)
    have hwr : weekdayNum r = tg := by
      have e1 : weekdayNum r = ((daysFromCivil today - db + 3) % 7).toNat := by
        unfold weekdayNum
        rw [hdays]
      have e2 : tw = ((daysFromCivil today + 3) % 7).toNat := htw_eq
      have hdisj : (tg < tw ∧ db = tw - tg) ∨ (tw ≤ tg ∧ db = 7 - tg + tw) := by
        by_cases hc : tg < tw
        · refine Or.inl ⟨hc, ?_⟩
          rw [hdb, hdb0, if_pos hc, if_neg (by omega)]
        · refine Or.inr ⟨by omega, ?_⟩
          rw [hdb, hdb0, if_neg hc]
          split_ifs with h0 <;> omega
      rcases hdisj with ⟨hc, hde⟩ | ⟨hc, hde⟩ <;> (rw [hde] at e1; omega)
    refine ⟨hlt, dateLtB_ne hlt, ?_, db, hdb17.1, hdb17.2, h, ?_⟩
    · rw [weekdayOf, hwr, htg]
      exact weekdayFromNum_numFromMonday target
    · intro he
      have hteq : tw = tg := by rw [htw, htg, he]
      rw [hdb, hdb0]
      split_ifs <;> omega

theorem c9_weekday_resolvers_witness :
    dateOk dToday26 = true ∧
    next_weekday_from dToday26 Weekday.Fri = some ⟨2026, 1, 9⟩ ∧
    prev_weekday_from dToday26 Weekday.Fri = some ⟨2026, 1, 2⟩ ∧
    weekdayOf (⟨2026, 1, 9⟩ : Date) = Weekday.Fri ∧
    dateLtB dToday26 ⟨2026, 1, 9⟩ = true ∧
    next_weekday_from dToday26 Weekday.Mon = some ⟨2026, 1, 12⟩ ∧
    checkedAddDays dToday26 7 = some ⟨2026, 1, 12⟩ := by
  refine ⟨by decide, by decide, by decide, ?_, ?_, by decide, ?_⟩
  · exact ((c9_weekday_resolvers dToday26 Weekday.Fri (by decide)).1
      ⟨2026, 1, 9⟩ (by decide)).2.2.1
  · exact ((c9_weekday_resolvers dToday26 Weekday.Fri (by decide)).1
      ⟨2026, 1, 9⟩ (by decide)).1
  · obtain ⟨-, -, -, n, h1, h7, hadd, hsame⟩ :=
      (c9_weekday_resolvers dToday26 Weekday.Mon (by decide)).1
        ⟨2026, 1, 12⟩ (by decide)
    have hn : n = 7 := hsame (by decide)
    rw [hn] at hadd
    exact hadd

/-! ### Recurring patterns (`storage/entries.rs:89`) and claim C7 -/

inductive RecurringPattern where
  | Daily
  | Weekday
  | Weekly (day : Weekday)
  | Monthly (day : Nat)
deriving DecidableEq

/-- `last_day_of_month` (`storage/entries.rs:123`): first day of the next
month, stepped back one day; `unwrap_or(28)` when that fails. -/
def last_day_of_month (date : Date) : Nat :=
  let next_month := if date.m = 12 then fromYmd (date.y + 1) 1 1
    else fromYmd date.y (date.m + 1) 1
  (((next_month.bind checkedPred).map (fun dt => dt.d)).getD 28)

/-- `RecurringPattern::matches` (`storage/entries.rs:105`). -/
def RecurringPattern.matches : RecurringPattern → Date → Bool
  | .Daily, _ => true
  | .Weekday, date => !(weekdayOf date = Weekday.Sat ∨ weekdayOf date = Weekday.Sun)
  | .Weekly day, date => weekdayOf date = day
  | .Monthly day, date =>
    let last_day := last_day_of_month date
    if last_day < day then date.d = last_day else date.d = day

/-- Claim C7 (code bug at the chrono year boundary): `Monthly(31)` clamps to
the last day of short months — Feb 28 in a plain year, Feb 29 in a leap year,
day 31 in 31-day months — but in December of the maximal chrono year
(modelled as 262143) the `unwrap_or(28)` fallback in `last_day_of_month`
makes it match day 28 instead of day 31, contradicting both the claim and the
function's own documentation. -/
theorem c7_monthly_clamp_boundary :
    RecurringPattern.matches (.Monthly 31) ⟨2026, 2, 28⟩ = true ∧
    RecurringPattern.matches (.Monthly 31) ⟨2028, 2, 29⟩ = true ∧
    RecurringPattern.matches (.Monthly 31) ⟨2026, 1, 31⟩ = true ∧
    RecurringPattern.matches (.Monthly 31) ⟨2026, 12, 31⟩ = true ∧
    RecurringPattern.matches (.Monthly 31) ⟨2026, 2, 27⟩ = false ∧
    dateOk ⟨262143, 12, 31⟩ = true ∧
    daysInMonth 262143 12 = 31 ∧
    RecurringPattern.matches (.Monthly 31) ⟨262143, 12, 31⟩ = false ∧
    RecurringPattern.matches (.Monthly 31) ⟨262143, 12, 28⟩ = true := by
  decide

/-! ### `LATER_DATE_REGEX` and `TAG_REGEX` matchers -/

def isTagStart (c : Char) : Bool :=
  ('a' ≤ c && c ≤ 'z') || ('A' ≤ c && c ≤ 'Z')

def isTagChar (c : Char) : Bool :=
  isTagStart c || isAsciiDigit c || c = '_' || c = '-'

def extractTagsFuel : Nat → Str → List Str
  | 0, _ => []
  | _ + 1, [] => []
  | f + 1, c :: cs =>
    if c = '#' then
      match cs with
      | d :: _ =>
        if isTagStart d then
          (cs.takeWhile isTagChar) :: extractTagsFuel f (cs.dropWhile isTagChar)
        else extractTagsFuel f cs
      | [] => []
    else extractTagsFuel f cs

/-- `extract_tags` via `TAG_REGEX` `#([a-zA-Z][a-zA-Z0-9_-]*)`: leftmost
matches with maximal munch, scanning resuming after each match. -/
def extract_tags (content : Str) : List Str :=
  extractTagsFuel content.length content

/-- First alternative of `LATER_DATE_REGEX`: `\d{4}/\d{1,2}/\d{1,2}`
(leftmost-first backtracking semantics of the `regex` crate; digit runs and
`/` are disjoint, so greedy matching needs no backtracking here). -/
def matchAlt1 (s : Str) : Option Str :=
  let r1 := s.takeWhile isAsciiDigit
  if r1.length = 4 then
    match s.dropWhile isAsciiDigit with
    | '/' :: s2 =>
      let r2 := s2.takeWhile isAsciiDigit
      if 1 ≤ r2.length ∧ r2.length ≤ 2 then
        match s2.dropWhile isAsciiDigit with
        | '/' :: s3 =>
          let r3 := (s3.takeWhile isAsciiDigit).take 2
          if 1 ≤ r3.length then some (r1 ++ '/' :: r2 ++ '/' :: r3) else none
        | _ => none
      else none
    | _ => none
  else none

/-- Second alternative of `LATER_DATE_REGEX`:
`\d{1,2}/\d{1,2}(?:/\d{2,4})?`. -/
def matchAlt2 (s : Str) : Option Str :=
  let r1 := s.takeWhile isAsciiDigit
  if 1 ≤ r1.length ∧ r1.length ≤ 2 then
    match s.dropWhile isAsciiDigit with
    | '/' :: s2 =>
      let run2 := s2.takeWhile isAsciiDigit
      if 1 ≤ run2.length then
        let r2 := run2.take 2
        match s2.drop r2.length with
        | '/' :: s4 =>
          let run3 := s4.takeWhile isAsciiDigit
          if 2 ≤ run3.length then some (r1 ++ '/' :: r2 ++ '/' :: run3.take 4)
          else some (r1 ++ '/' :: r2)
        | _ => some (r1 ++ '/' :: r2)
      else none
    | _ => none
  else none

/-- First capture of `LATER_DATE_REGEX`
`@(\d{4}/\d{1,2}/\d{1,2}|\d{1,2}/\d{1,2}(?:/\d{2,4})?)`: scan left to right
for an `@`, try the alternatives in order, else continue. -/
def findDateToken : Str → Option Str
  | [] => none
  | c :: cs =>
    if c = '@' then
      match matchAlt1 cs with
      | some tok => some tok
      | none =>
        match matchAlt2 cs with
        | some tok => some tok
        | none => findDateToken cs
    else findDateToken cs

/-- `extract_target_date` (`storage.rs:813`). -/
def extract_target_date (content : Str) (today : Date) : Option Date :=
  (findDateToken content).bind (fun tok => parse_later_date tok today)

/-- `extract_target_date_prefer_past` (`storage.rs:852`). -/
def extract_target_date_prefer_past (content : Str) (today : Date) : Option Date :=
  (findDateToken content).bind (fun tok => parse_date_prefer_past tok today)

/-! ### FilterQ query engine (`storage.rs:536-1136`) and claim C2 -/

inductive FilterType where
  | Task
  | Note
  | Event
deriving DecidableEq

structure FilterQ where
  entry_type : Option FilterType
  completed : Option Bool
  tags : List Str
  exclude_tags : List Str
  search_terms : List Str
  exclude_terms : List Str
  exclude_types : List FilterType
  before_date : Option Date
  after_date : Option Date
  overdue : Bool
  invalid_tokens : List Str
deriving DecidableEq

/-- `Filter::default` (the `Filter` struct is named `FilterQ` here to avoid clashing with Mathlib). -/
def defaultFilter : FilterQ := ⟨none, none, [], [], [], [], [], none, none, false, []⟩

/-- `parse_type_keyword` (`storage.rs:904`). -/
def parse_type_keyword (s : Str) : Option FilterType :=
  if s = litS "tasks" ∨ s = litS "task" ∨ s = litS "t" then some .Task
  else if s = litS "notes" ∨ s = litS "note" ∨ s = litS "n" then some .Note
  else if s = litS "events" ∨ s = litS "event" ∨ s = litS "e" then some .Event
  else none

def splitWsFuel : Nat → Str → List Str
  | 0, _ => []
  | f + 1, s =>
    match s.dropWhile isWs with
    | [] => []
    | s1 =>
      s1.takeWhile (fun c => !isWs c) ::
        splitWsFuel f (s1.dropWhile (fun c => !isWs c))

/-- Rust `str::split_whitespace`. -/
def splitWhitespace (s : Str) : List Str := splitWsFuel s.length s

/-- One token of `parse_filter_query` (`storage.rs:918-1002`), evaluated in
source order. -/
def processToken (today : Date) (filter : FilterQ) (token : Str) : FilterQ :=
  match stripPref (litS "@before:") token with
  | some date_str =>
    if filter.before_date.isSome then
      { filter with invalid_tokens :=
          filter.invalid_tokens ++ [litS "Multiple @before dates"] }
    else
      match parse_natural_date date_str today with
      | some date => { filter with before_date := some date }
      | none =>
        { filter with invalid_tokens := filter.invalid_tokens ++ [token] }
  | none =>
  match stripPref (litS "@after:") token with
  | some date_str =>
    if filter.after_date.isSome then
      { filter with invalid_tokens :=
          filter.invalid_tokens ++ [litS "Multiple @after dates"] }
    else
      match parse_natural_date date_str today with
      | some date => { filter with after_date := some date }
      | none =>
        { filter with invalid_tokens := filter.invalid_tokens ++ [token] }
  | none =>
  if token = litS "@overdue" then { filter with overdue := true }
  else if hasPref (litS "@") token && token.contains ':' then
    { filter with invalid_tokens := filter.invalid_tokens ++ [token] }
  else
  match stripPref (litS "not:") token with
  | some negated =>
    match stripPref (litS "#") negated with
    | some tag => { filter with exclude_tags := filter.exclude_tags ++ [tag] }
    | none =>
      match stripPref (litS "!") negated with
      | some type_str =>
        match parse_type_keyword type_str with
        | some filter_type =>
          { filter with exclude_types := filter.exclude_types ++ [filter_type] }
        | none =>
          { filter with invalid_tokens := filter.invalid_tokens ++ [token] }
      | none =>
        if negated ≠ [] then
          { filter with exclude_terms := filter.exclude_terms ++ [negated] }
        else filter
  | none =>
  match stripPref (litS "!") token with
  | some type_str =>
    let bm : Str × Option Str :=
      match findCharIdx '/' type_str with
      | some idx => (type_str.take idx, some (type_str.drop (idx + 1)))
      | none => (type_str, none)
    let base_type := bm.1
    let modifier := bm.2
    let new_type : Option FilterType :=
      if base_type = litS "tasks" ∨ base_type = litS "task" ∨ base_type = litS "t" then
        some .Task
      else if base_type = litS "notes" ∨ base_type = litS "note" ∨ base_type = litS "n" then
        some .Note
      else if base_type = litS "events" ∨ base_type = litS "event" ∨ base_type = litS "e" then
        some .Event
      else none
    match new_type with
    | some nt =>
      if filter.entry_type.isSome ∧ filter.entry_type ≠ some nt then
        { filter with invalid_tokens :=
            filter.invalid_tokens ++ [litS "Multiple entry types"] }
      else
        let f1 := { filter with entry_type := some nt }
        if base_type = litS "tasks" ∨ base_type = litS "task" ∨ base_type = litS "t" then
          { f1 with completed :=
              match modifier with
              | some m =>
                if m = litS "done" ∨ m = litS "completed" then some true
                else if m = litS "all" then none
                else some false
              | none => some false }
        else f1
    | none =>
      { filter with invalid_tokens := filter.invalid_tokens ++ [token] }
  | none =>
  match stripPref (litS "#") token with
  | some tag => { filter with tags := filter.tags ++ [tag] }
  | none =>
    if token ≠ [] then
      { filter with search_terms := filter.search_terms ++ [token] }
    else filter

/-- `parse_filter_query` (`storage.rs:914`), parameterized by `today`
(`chrono::Local::now`). -/
def parse_filter_query (query : Str) (today : Date) : FilterQ :=
  (splitWhitespace query).foldl (processToken today) defaultFilter

/-- `entry_type_to_filter_type` (`storage.rs:1071`). -/
def entry_type_to_filter_type : EntryType → FilterType
  | .Task _ => .Task
  | .Note => .Note
  | .Event => .Event

/-- Rust `str::eq_ignore_ascii_case`. -/
def eqIgnoreAsciiCase (a b : Str) : Bool := strToLower a = strToLower b

/-- Rust `str::contains(&str)` (substring). -/
def strContains (s pat : Str) : Bool := (strFind pat s).isSome

/-- `entry_matches_filter` (`storage.rs:1079`). -/
def entry_matches_filter (entry : Entry) (filter : FilterQ) : Bool :=
  let entry_filter_type := entry_type_to_filter_type entry.entry_type
  if filter.entry_type.isSome ∧ filter.entry_type ≠ some entry_filter_type then
    false
  else if filter.exclude_types.contains entry_filter_type then false
  else if (match filter.completed, entry.entry_type with
           | some want, .Task c => c != want
           | _, _ => false) then false
  else
    let entry_tags := extract_tags entry.content
    if ¬ (filter.tags.all fun rt => entry_tags.any fun t => eqIgnoreAsciiCase t rt) then
      false
    else if filter.exclude_tags.any fun et => entry_tags.any fun t => eqIgnoreAsciiCase t et then
      false
    else
      let content_lower := strToLower entry.content
      if ¬ (filter.search_terms.all fun term => strContains content_lower (strToLower term)) then
        false
      else if filter.exclude_terms.any fun term => strContains content_lower (strToLower term) then
        false
      else true

def isCompletedTask : EntryType → Bool
  | .Task c => c
  | _ => false

structure FilterEntry where
  source_date : Date
  content : Str
  line_index : Nat
  entry_type : EntryType
  completed : Bool
deriving DecidableEq

/-- The document scan of `collect_filtered_entries` (`storage.rs:1019-1065`),
tracking the current day and the per-day line counter. -/
def collectFilteredGo (filter : FilterQ) (today : Date) :
    List Str → Option Date → Nat → List FilterEntry
  | [], _, _ => []
  | line :: ls, current_date, idx =>
    match parse_day_header line with
    | some date => collectFilteredGo filter today ls (some date) 0
    | none =>
      match current_date with
      | none => collectFilteredGo filter today ls none idx
      | some source_date =>
        if (match filter.before_date with
            | some before => dateLtB before source_date
            | none => false) then
          collectFilteredGo filter today ls (some source_date) (idx + 1)
        else if (match filter.after_date with
            | some after => dateLtB source_date after
            | none => false) then
          collectFilteredGo filter today ls (some source_date) (idx + 1)
        else
          match parse_line line with
          | .Entry entry =>
            if filter.overdue &&
               (match extract_target_date_prefer_past entry.content today with
                | none => true
                | some target => !(dateLtB target today)) then
              collectFilteredGo filter today ls (some source_date) (idx + 1)
            else if entry_matches_filter entry filter then
              ⟨source_date, entry.content, idx, entry.entry_type,
                isCompletedTask entry.entry_type⟩ ::
                collectFilteredGo filter today ls (some source_date) (idx + 1)
            else collectFilteredGo filter today ls (some source_date) (idx + 1)
          | .Raw _ => collectFilteredGo filter today ls (some source_date) (idx + 1)

def insertByDateSrcF (x : FilterEntry) : List FilterEntry → List FilterEntry
  | [] => [x]
  | y :: ys =>
    if dateLeB x.source_date y.source_date then x :: y :: ys
    else y :: insertByDateSrcF x ys

/-- Stable sort by `source_date` (extensionally equal to Rust's stable
`sort_by_key`: an earlier element is inserted before later equal keys). -/
def sortByDateSrcF : List FilterEntry → List FilterEntry
  | [] => []
  | x :: xs => insertByDateSrcF x (sortByDateSrcF xs)

/-- `collect_filtered_entries` (`storage.rs:1008`), parameterized by the
loaded journal text and by `today`. -/
def collect_filtered_entries (filter : FilterQ) (journal : Str) (today : Date) :
    List FilterEntry :=
  if filter.invalid_tokens ≠ [] then []
  else sortByDateSrcF (collectFilteredGo filter today (rustLines journal) none 0)

/-- Claim C2: a filter with any invalid token matches nothing, on every
document — `collect_filtered_entries` returns the empty list before scanning
(the result does not depend on the document at all). -/
theorem c2_filter_fail_closed (filter : FilterQ)
    (h : filter.invalid_tokens ≠ []) :
    ∀ journal today, collect_filtered_entries filter journal today = [] := by
  intro journal today
  unfold collect_filtered_entries
  rw [if_pos h]

theorem c2_filter_fail_closed_witness :
    (parse_filter_query (litS "!bogus") dToday26).invalid_tokens ≠ [] ∧
    (parse_filter_query (litS "@before:1/1 @before:1/15") dToday26).invalid_tokens ≠ [] ∧
    collect_filtered_entries (parse_filter_query (litS "!bogus") dToday26)
      (litS "# 2026/01/10\n- [ ] bogus match") dToday26 = [] ∧
    collect_filtered_entries (parse_filter_query (litS "@before:1/1 @before:1/15") dToday26)
      (litS "# 2026/01/10\n- [ ] hit") dToday26 = [] :=
  ⟨by decide, by decide,
   c2_filter_fail_closed _ (by decide) _ _,
   c2_filter_fail_closed _ (by decide) _ _⟩

/-! ### Day section engine (`storage.rs:341-534`) -/

def fndhGo : List Str → Bool → Nat → Option Nat
  | [], _, _ => none
  | p :: ps, is_first, pos =>
    if !is_first && is_day_header (chompLine p) then some pos
    else fndhGo ps false (pos + p.length)

/-- `find_next_day_header` (`storage.rs:401`): position of the next day-header
line (the first line is skipped; per-line position bookkeeping advances by
the full terminated length of each line). -/
def find_next_day_header (content : Str) : Option Nat :=
  fndhGo (splitInclusive nlc content) true 0

/-- `extract_day_content` (`storage.rs:368`). -/
def extract_day_content (journal : Str) (date : Date) : Str :=
  let header := day_header date
  match strFind header journal with
  | none => []
  | some start_idx =>
    let after0 := journal.drop (start_idx + header.length)
    let after_header := match stripPref [nlc] after0 with
      | some t => t
      | none => after0
    match find_next_day_header after_header with
    | some idx => trimEnd (after_header.take idx)
    | none => trimEnd after_header

/-- `split_around_day` (`storage.rs:445`). -/
def split_around_day (journal : Str) (start_idx : Nat) (header : Str) : Str × Str :=
  let before := journal.take start_idx
  let after0 := journal.drop (start_idx + header.length)
  let after_header := match stripPref [nlc] after0 with
    | some t => t
    | none => after0
  let after := match find_next_day_header after_header with
    | some idx => after_header.drop idx
    | none => []
  (before, after)

/-- `remove_day` (`storage.rs:459`). -/
def remove_day (before after : Str) : Str :=
  let r1 := trimEnd before
  let r2 := if r1 ≠ [] ∧ after ≠ [] then r1 ++ [nlc, nlc] else r1
  let r3 := r2 ++ trimStart after
  if r3 = [] then r3 else trimEnd r3 ++ [nlc]

/-- `replace_day` (`storage.rs:472`). -/
def replace_day (before header content after : Str) : Str :=
  trimEnd (before ++ header ++ nlc :: trimEnd content ++ nlc :: nlc :: after) ++ [nlc]

def fipGo (journal : Str) (date : Date) : List Str → Option Nat
  | [] => none
  | line :: ls =>
    match parse_day_header line with
    | some existing_date =>
      if dateLtB date existing_date then strFind line journal
      else fipGo journal date ls
    | none => fipGo journal date ls

/-- `find_insertion_point` (`storage.rs:514`): the first header line with a
strictly later date, located in the document by `str::find` on the line's
text (that is, its first substring occurrence). -/
def find_insertion_point (journal : Str) (date : Date) : Option Nat :=
  fipGo journal date (rustLines journal)

/-- `insert_new_day` (`storage.rs:479`). -/
def insert_new_day (journal : Str) (date : Date) (header content : Str) : Str :=
  let new_day := header ++ nlc :: trimEnd content ++ [nlc]
  match find_insertion_point journal date with
  | some pos =>
    let before := trimEnd (journal.take pos)
    let after := journal.drop pos
    if before = [] then
      trimEnd (trimEnd new_day ++ nlc :: trimStart after) ++ [nlc]
    else
      trimEnd (before ++ nlc :: nlc :: trimEnd new_day ++ nlc :: trimStart after) ++ [nlc]
  | none =>
    let r1 := trimEnd journal
    let r2 := if r1 ≠ [] then r1 ++ [nlc, nlc] else r1
    r2 ++ trimEnd new_day ++ [nlc]

/-- `update_day_content` (`storage.rs:427`). -/
def update_day_content (journal : Str) (date : Date) (new_content : Str) : Str :=
  let header := day_header date
  let content_is_empty := trimBoth new_content = []
  match strFind header journal with
  | some start_idx =>
    let ba := split_around_day journal start_idx header
    if content_is_empty then remove_day ba.1 ba.2
    else replace_day ba.1 header new_content ba.2
  | none =>
    if content_is_empty then journal
    else insert_new_day journal date header new_content

/-! ### Mutation primitives (`storage.rs:279-339`), acting on the document
(`load_journal`/`save_journal` collapse to the document value itself) -/

def load_day_lines_doc (journal : Str) (date : Date) : List Line :=
  parse_lines (extract_day_content journal date)

def save_day_lines_doc (journal : Str) (date : Date) (lines : List Line) : Str :=
  update_day_content journal date (serialize_lines lines)

/-- `update_entry_content` (`storage.rs:291`): edits the entry's content and
saves only when the indexed line is an `Entry`. -/
def update_entry_content (journal : Str) (date : Date) (line_index : Nat)
    (content : Str) : Str :=
  let lines := load_day_lines_doc journal date
  match lines.get? line_index with
  | some (.Entry e) =>
    save_day_lines_doc journal date
      (lines.set line_index (.Entry ⟨e.entry_type, content⟩))
  | _ => journal

/-- `toggle_entry_complete` (`storage.rs:310`): toggles in place when the
indexed line is an `Entry`, then always re-saves. -/
def toggle_entry_complete (journal : Str) (date : Date) (line_index : Nat) : Str :=
  let lines := load_day_lines_doc journal date
  let lines2 := match lines.get? line_index with
    | some (.Entry e) => lines.set line_index (.Entry e.toggle_complete)
    | _ => lines
  save_day_lines_doc journal date lines2

/-- `cycle_entry_type` (`storage.rs:320`). -/
def cycle_entry_type (journal : Str) (date : Date) (line_index : Nat) : Str :=
  let lines := load_day_lines_doc journal date
  let lines2 := match lines.get? line_index with
    | some (.Entry e) => lines.set line_index (.Entry ⟨e.entry_type.cycle, e.content⟩)
    | _ => lines
  save_day_lines_doc journal date lines2

/-- `delete_entry` (`storage.rs:333`): removes the line at any in-range index,
whatever its variant, then saves. -/
def delete_entry (journal : Str) (date : Date) (line_index : Nat) : Str :=
  let lines := load_day_lines_doc journal date
  let lines2 := if line_index < lines.length then lines.eraseIdx line_index else lines
  save_day_lines_doc journal date lines2

/-! ### Claim C8: no-op asymmetry of the mutation primitives -/

theorem serialize_parse_id {c : Str} (hlines : ∀ l ∈ rustLines c, goodLine l = true)
    (hjoin : joinNl (rustLines c) = c) :
    serialize_lines (parse_lines c) = c := by
  unfold serialize_lines parse_lines
  rw [List.map_map]
  have : ∀ l ∈ rustLines c, (serialize_line ∘ parse_line) l = id l := by
    intro l hl
    exact roundtrip_line_good (hlines l hl)
  rw [List.map_congr_left this, List.map_id, hjoin]

theorem map_eraseIdx_comm (f : Str → Line) (l : List Str) (i : Nat) :
    (l.map f).eraseIdx i = (l.eraseIdx i).map f := by
  rw [List.eraseIdx_eq_take_drop_succ, List.eraseIdx_eq_take_drop_succ]
  simp [List.map_take, List.map_drop]

theorem mem_of_mem_eraseIdx' {l : List Str} {i : Nat} {x : Str}
    (h : x ∈ l.eraseIdx i) : x ∈ l := by
  rw [List.eraseIdx_eq_take_drop_succ] at h
  rcases List.mem_append.mp h with h | h
  · exact List.mem_of_mem_take h
  · exact List.mem_of_mem_drop h

/-- The indexed line exists and is an `Entry`. -/
def isEntryAt (lines : List Line) (i : Nat) : Bool :=
  match lines.get? i with
  | some (.Entry _) => true
  | _ => false

/-- Claim C8: on a canonically-stored day (re-saving its extracted content
reproduces the document, and its lines are round-trip-safe),
`update_entry_content`, `toggle_entry_complete` and `cycle_entry_type` leave
the document unchanged whenever the indexed line is out of range or not an
`Entry`, while `delete_entry` at any in-range index removes that line — even
a `Raw` one. -/
theorem c8_mutation_noop_asymmetry (journal : Str) (date : Date) (c : Str)
    (hex : extract_day_content journal date = c)
    (hround : update_day_content journal date c = journal)
    (hlines : ∀ l ∈ rustLines c, goodLine l = true)
    (hjoin : joinNl (rustLines c) = c) :
    (∀ i content2, isEntryAt (parse_lines c) i = false →
      update_entry_content journal date i content2 = journal) ∧
    (∀ i, isEntryAt (parse_lines c) i = false →
      toggle_entry_complete journal date i = journal) ∧
    (∀ i, isEntryAt (parse_lines c) i = false →
      cycle_entry_type journal date i = journal) ∧
    (∀ i, i < (rustLines c).length →
      delete_entry journal date i =
        update_day_content journal date (joinNl ((rustLines c).eraseIdx i))) := by
  have hload : load_day_lines_doc journal date = parse_lines c := by
    unfold load_day_lines_doc
    rw [hex]
  have hsave_id : save_day_lines_doc journal date (parse_lines c) = journal := by
    unfold save_day_lines_doc
    rw [serialize_parse_id hlines hjoin, hround]
  refine ⟨?_, ?_, ?_, ?_⟩
  · intro i content2 hne
    simp only [update_entry_content, hload]
    cases hg : (parse_lines c).get? i with
    | none => rfl
    | some ln =>
      cases ln with
      | Entry e =>
        rw [isEntryAt, hg] at hne
        simp at hne
      | Raw s => rfl
  · intro i hne
    simp only [toggle_entry_complete, hload]
    cases hg : (parse_lines c).get? i with
    | none => exact hsave_id
    | some ln =>
      cases ln with
      | Entry e =>
        rw [isEntryAt, hg] at hne
        simp at hne
      | Raw s => exact hsave_id
  · intro i hne
    simp only [cycle_entry_type, hload]
    cases hg : (parse_lines c).get? i with
    | none => exact hsave_id
    | some ln =>
      cases ln with
      | Entry e =>
        rw [isEntryAt, hg] at hne
        simp at hne
      | Raw s => exact hsave_id
  · intro i hi
    simp only [delete_entry, hload]
    have hlen : (parse_lines c).length = (rustLines c).length := by
      unfold parse_lines
      exact List.length_map _ _
    rw [if_pos (by rw [hlen]; exact hi)]
    unfold save_day_lines_doc
    have he : (parse_lines c).eraseIdx i = ((rustLines c).eraseIdx i).map parse_line := by
      unfold parse_lines
      exact map_eraseIdx_comm parse_line (rustLines c) i
    rw [he]
    have hs : serialize_lines (((rustLines c).eraseIdx i).map parse_line) =
        joinNl ((rustLines c).eraseIdx i) := by
      unfold serialize_lines
      rw [List.map_map]
      have : ∀ l ∈ (rustLines c).eraseIdx i,
          (serialize_line ∘ parse_line) l = id l := by
        intro l hl
        exact roundtrip_line_good (hlines l (mem_of_mem_eraseIdx' hl))
      rw [List.map_congr_left this, List.map_id]
    rw [hs]

def c8J : Str := litS "# 2026/01/10\n- [ ] a\nraw\n"

def c8C : Str := litS "- [ ] a\nraw"

theorem c8_mutation_noop_asymmetry_witness :
    extract_day_content c8J ⟨2026, 1, 10⟩ = c8C ∧
    update_day_content c8J ⟨2026, 1, 10⟩ c8C = c8J ∧
    update_entry_content c8J ⟨2026, 1, 10⟩ 7 (litS "zz") = c8J ∧
    toggle_entry_complete c8J ⟨2026, 1, 10⟩ 7 = c8J ∧
    toggle_entry_complete c8J ⟨2026, 1, 10⟩ 1 = c8J ∧
    cycle_entry_type c8J ⟨2026, 1, 10⟩ 1 = c8J ∧
    delete_entry c8J ⟨2026, 1, 10⟩ 1 =
      update_day_content c8J ⟨2026, 1, 10⟩ (litS "- [ ] a") := by
  have h := c8_mutation_noop_asymmetry c8J ⟨2026, 1, 10⟩ c8C (by decide) (by decide)
    (by decide) (by decide)
  refine ⟨by decide, by decide, ?_, ?_, ?_, ?_, ?_⟩
  · exact h.1 7 (litS "zz") (by decide)
  · exact h.2.1 7 (by decide)
  · exact h.2.1 1 (by decide)
  · exact h.2.2.1 1 (by decide)
  · have hd := h.2.2.2 1 (by decide)
    have he : joinNl ((rustLines c8C).eraseIdx 1) = litS "- [ ] a" := by decide
    rw [he] at hd
    exact hd

/-! ### Later-entry projection (`storage.rs:861`) and claim C3 -/

structure LaterEntry where
  source_date : Date
  line_index : Nat
  content : Str
  entry_type : EntryType
  completed : Bool
deriving DecidableEq

/-- The document scan of `collect_later_entries_for_date`
(`storage.rs:867-897`). -/
def laterScan (target : Date) : List Str → Option Date → Nat → List LaterEntry
  | [], _, _ => []
  | line :: ls, current_date, idx =>
    match parse_day_header line with
    | some date => laterScan target ls (some date) 0
    | none =>
      match current_date with
      | none => laterScan target ls none idx
      | some source_date =>
        if source_date = target then
          laterScan target ls (some source_date) (idx + 1)
        else
          match parse_line line with
          | .Entry entry =>
            if extract_target_date entry.content target = some target then
              ⟨source_date, idx, entry.content, entry.entry_type,
                isCompletedTask entry.entry_type⟩ ::
                laterScan target ls (some source_date) (idx + 1)
            else laterScan target ls (some source_date) (idx + 1)
          | .Raw _ => laterScan target ls (some source_date) (idx + 1)

def insertByDateSrcL (x : LaterEntry) : List LaterEntry → List LaterEntry
  | [] => [x]
  | y :: ys =>
    if dateLeB x.source_date y.source_date then x :: y :: ys
    else y :: insertByDateSrcL x ys

/-- Stable sort by `source_date` (extensionally Rust's stable
`sort_by_key`). -/
def sortByDateSrcL : List LaterEntry → List LaterEntry
  | [] => []
  | x :: xs => insertByDateSrcL x (sortByDateSrcL xs)

/-- `collect_later_entries_for_date` (`storage.rs:861`), parameterized by the
loaded journal text. -/
def collect_later_entries_for_date (journal : Str) (target : Date) :
    List LaterEntry :=
  sortByDateSrcL (laterScan target (rustLines journal) none 0)

/-- The state (current day, per-day line counter) of the scan after a prefix
of the document's lines. -/
def scanStateStep (st : Option Date × Nat) (l : Str) : Option Date × Nat :=
  match parse_day_header l with
  | some dt => (some dt, 0)
  | none =>
    match st.1 with
    | none => st
    | some _ => (st.1, st.2 + 1)

def scanStateAt (pre : List Str) : Option Date × Nat :=
  pre.foldl scanStateStep (none, 0)

theorem mem_insertByDateSrcL {x y : LaterEntry} {l : List LaterEntry} :
    y ∈ insertByDateSrcL x l ↔ y = x ∨ y ∈ l := by
  induction l with
  | nil => simp [insertByDateSrcL]
  | cons z zs ih =>
    simp only [insertByDateSrcL]
    split_ifs with hc
    · simp
    · simp only [List.mem_cons, ih]
      tauto

theorem mem_sortByDateSrcL {y : LaterEntry} {l : List LaterEntry} :
    y ∈ sortByDateSrcL l ↔ y ∈ l := by
  induction l with
  | nil => simp [sortByDateSrcL]
  | cons z zs ih =>
    simp only [sortByDateSrcL, mem_insertByDateSrcL, ih, List.mem_cons]

theorem parse_day_header_of_entry {l : Str} {e : Entry}
    (h : parse_line l = Line.Entry e) : parse_day_header l = none := by
  cases hp : stripPref (litS "# ") l with
  | none => simp only [parse_day_header, hp]
  | some rest =>
    exfalso
    have hl : l = '#' :: ' ' :: rest := stripPref_eq_some.mp hp
    subst hl
    have ht : trimStart ('#' :: ' ' :: rest) = '#' :: ' ' :: rest :=
      trimStart_cons_of_not_ws _ (by decide)
    rw [parse_line] at h
    simp only [ht] at h
    simp only [show stripPref (litS "- [ ] ") ('#' :: ' ' :: rest) = none from rfl,
      show stripPref (litS "- [x] ") ('#' :: ' ' :: rest) = none from rfl,
      show stripPref (litS "* ") ('#' :: ' ' :: rest) = none from rfl,
      show stripPref (litS "- ") ('#' :: ' ' :: rest) = none from rfl] at h
    exact Line.noConfusion h

theorem laterScan_mem_of_state (target : Date) :
    ∀ (pre : List Str) (cur : Option Date) (idx : Nat) (l : Str)
      (post : List Str) (src : Date) (i : Nat) (e : Entry),
      pre.foldl scanStateStep (cur, idx) = (some src, i) →
      src ≠ target →
      parse_line l = Line.Entry e →
      extract_target_date e.content target = some target →
      (⟨src, i, e.content, e.entry_type, isCompletedTask e.entry_type⟩ : LaterEntry) ∈
        laterScan target (pre ++ l :: post) cur idx := by
  intro pre
  induction pre with
  | nil =>
    intro cur idx l post src i e hst hne hpl hex
    simp only [List.foldl_nil] at hst
    have h1 : cur = some src := congrArg Prod.fst hst
    have h2 : idx = i := congrArg Prod.snd hst
    subst h1
    subst h2
    simp only [List.nil_append, laterScan, parse_day_header_of_entry hpl,
      if_neg hne, hpl, if_pos hex]
    exact List.mem_cons_self _ _
  | cons p pre' ih =>
    intro cur idx l post src i e hst hne hpl hex
    rw [List.foldl_cons] at hst
    simp only [List.cons_append, laterScan]
    cases hd : parse_day_header p with
    | some dt =>
      have hs : scanStateStep (cur, idx) p = (some dt, 0) := by
        simp [scanStateStep, hd]
      rw [hs] at hst
      exact ih (some dt) 0 l post src i e hst hne hpl hex
    | none =>
      cases cur with
      | none =>
        have hs : scanStateStep (none, idx) p = (none, idx) := by
          simp [scanStateStep, hd]
        rw [hs] at hst
        exact ih none idx l post src i e hst hne hpl hex
      | some sd =>
        have hs : scanStateStep (some sd, idx) p = (some sd, idx + 1) := by
          simp [scanStateStep, hd]
        rw [hs] at hst
        have hrec := ih (some sd) (idx + 1) l post src i e hst hne hpl hex
        by_cases hsd : sd = target
        · simp only [if_pos hsd]
          exact hrec
        · simp only [if_neg hsd]
          cases hp : parse_line p with
          | Entry pe =>
            by_cases hext : extract_target_date pe.content target = some target
            · simp only [if_pos hext]
              exact List.mem_cons_of_mem _ hrec
            · simp only [if_neg hext]
              exact hrec
          | Raw s => exact hrec

theorem laterScan_src_ne (target : Date) :
    ∀ (lines : List Str) (cur : Option Date) (idx : Nat) (le : LaterEntry),
      le ∈ laterScan target lines cur idx → le.source_date ≠ target := by
  intro lines
  induction lines with
  | nil =>
    intro cur idx le h
    simp [laterScan] at h
  | cons p ls ih =>
    intro cur idx le h
    simp only [laterScan] at h
    cases hd : parse_day_header p with
    | some dt =>
      simp only [hd] at h
      exact ih (some dt) 0 le h
    | none =>
      simp only [hd] at h
      cases cur with
      | none => exact ih none idx le h
      | some sd =>
        by_cases hsd : sd = target
        · simp only [if_pos hsd] at h
          exact ih (some sd) (idx + 1) le h
        · simp only [if_neg hsd] at h
          cases hp : parse_line p with
          | Entry pe =>
            simp only [hp, if_pos, if_neg] at h
            by_cases hext : extract_target_date pe.content target = some target
            · simp only [if_pos hext] at h
              rcases List.mem_cons.mp h with he | hm
              · rw [he]
                exact hsd
              · exact ih (some sd) (idx + 1) le hm
            · simp only [if_neg hext] at h
              exact ih (some sd) (idx + 1) le h
          | Raw s =>
            simp only [hp] at h
            exact ih (some sd) (idx + 1) le h

/-- Claim C3: `collect_later_entries_for_date` emits a `LaterEntry` (with the
source date, the in-day line index, and the entry's content/type/completion)
for every entry line of another day's section whose content carries a date
marker that the always-future resolver, anchored at the target date, resolves
to the target date; and no emitted entry ever comes from the target date's
own section. -/
theorem c3_later_entries (journal : Str) (target : Date) :
    (∀ pre l post src i e,
      rustLines journal = pre ++ l :: post →
      scanStateAt pre = (some src, i) →
      src ≠ target →
      parse_line l = Line.Entry e →
      extract_target_date e.content target = some target →
      (⟨src, i, e.content, e.entry_type, isCompletedTask e.entry_type⟩ : LaterEntry) ∈
        collect_later_entries_for_date journal target) ∧
    (∀ le ∈ collect_later_entries_for_date journal target,
      le.source_date ≠ target) := by
  constructor
  · intro pre l post src i e hsplit hstate hne hpl hex
    unfold collect_later_entries_for_date
    rw [mem_sortByDateSrcL, hsplit]
    exact laterScan_mem_of_state target pre none 0 l post src i e hstate hne hpl hex
  · intro le hle
    unfold collect_later_entries_for_date at hle
    rw [mem_sortByDateSrcL] at hle
    exact laterScan_src_ne target _ none 0 le hle

def c3J : Str :=
  litS "# 2026/01/10\n- [ ] pay @01/15\n\n# 2026/01/15\n- [ ] self @01/15\n"

def c3Target : Date := ⟨2026, 1, 15⟩

theorem c3_later_entries_witness :
    rustLines c3J = [litS "# 2026/01/10"] ++ litS "- [ ] pay @01/15" ::
      [litS "", litS "# 2026/01/15", litS "- [ ] self @01/15"] ∧
    (⟨⟨2026, 1, 10⟩, 0, litS "pay @01/15", EntryType.Task false, false⟩ : LaterEntry) ∈
      collect_later_entries_for_date c3J c3Target ∧
    (∀ le ∈ collect_later_entries_for_date c3J c3Target,
      le.source_date ≠ c3Target) := by
  refine ⟨by decide, ?_, (c3_later_entries c3J c3Target).2⟩
  exact (c3_later_entries c3J c3Target).1 [litS "# 2026/01/10"]
    (litS "- [ ] pay @01/15") [litS "", litS "# 2026/01/15", litS "- [ ] self @01/15"]
    ⟨2026, 1, 10⟩ 0 ⟨EntryType.Task false, litS "pay @01/15"⟩
    (by decide) (by decide) (by decide) (by decide) (by decide)

/-! ### Claim C4: day-insertion ordering -/

/-- The dates of the day-header lines of a document, in document order. -/
def headerDatesOf (journal : Str) : List Date :=
  (rustLines journal).filterMap parse_day_header

def strictAscendingDates : List Date → Bool
  | [] => true
  | [_] => true
  | a :: b :: r => dateLtB a b && strictAscendingDates (b :: r)

/-- Insertion immediately before the first strictly greater date (the spec's
insertion rule). -/
def orderedInsertDate (d : Date) : List Date → List Date
  | [] => [d]
  | x :: xs => if dateLtB d x then d :: x :: xs else x :: orderedInsertDate d xs

/-- The string is nonempty and its final character is not whitespace. -/
def lastCharNonWs (s : Str) : Bool :=
  match s.getLast? with
  | some c => !isWs c
  | none => false

theorem trimEnd_of_lastCharNonWs {s : Str} (h : lastCharNonWs s = true) :
    trimEnd s = s := by
  unfold lastCharNonWs at h
  cases hg : s.getLast? with
  | none => rw [hg] at h; simp at h
  | some c =>
    rw [hg] at h
    simp only [Bool.not_eq_true'] at h
    exact trimEnd_of_getLast_not_ws hg h

theorem ne_nil_of_lastCharNonWs {s : Str} (h : lastCharNonWs s = true) :
    s ≠ [] := by
  intro he
  subst he
  simp [lastCharNonWs] at h

theorem getLast?_cons_of_ne {c : Char} {t : Str} (ht : t ≠ []) :
    (c :: t).getLast? = t.getLast? := by
  cases t with
  | nil => exact absurd rfl ht
  | cons x xs => exact List.getLast?_cons_cons

theorem lastCharNonWs_trimStart {s : Str} (h : lastCharNonWs s = true) :
    lastCharNonWs (trimStart s) = true := by
  induction s with
  | nil => simpa [lastCharNonWs] using h
  | cons c t ih =>
    by_cases hc : isWs c = true
    · have ht : t ≠ [] := by
        intro he
        subst he
        simp [lastCharNonWs, hc] at h
      have h' : lastCharNonWs t = true := by
        unfold lastCharNonWs at h ⊢
        rwa [getLast?_cons_of_ne ht] at h
      rw [trimStart, List.dropWhile_cons, hc]
      simp only [if_true]
      have := ih h'
      rwa [trimStart] at this
    · rw [trimStart, List.dropWhile_cons]
      simp only [hc, if_false]
      exact h

theorem trimBoth_ne_nil_of_lastCharNonWs {s : Str} (h : lastCharNonWs s = true) :
    trimBoth s ≠ [] := by
  unfold trimBoth
  have h1 := lastCharNonWs_trimStart h
  rw [trimEnd_of_lastCharNonWs h1]
  exact ne_nil_of_lastCharNonWs h1

theorem lastCharNonWs_append {a b : Str} (hb : b ≠ [])
    (h : lastCharNonWs b = true) : lastCharNonWs (a ++ b) = true := by
  unfold lastCharNonWs at h ⊢
  rwa [List.getLast?_append_of_ne_nil a hb]

theorem dateLtB_asymm {a b : Date} (h : dateLtB a b = true) :
    dateLtB b a = false := by
  rw [dateLtB_iff] at h
  cases hc : dateLtB b a with
  | false => rfl
  | true =>
    rw [dateLtB_iff] at hc
    exfalso
    omega

theorem orderedInsertDate_middle (D dnext : Date) (bs rest : List Date)
    (hbs : ∀ b ∈ bs, dateLtB b D = true) (hlt : dateLtB D dnext = true) :
    orderedInsertDate D (bs ++ dnext :: rest) = bs ++ D :: dnext :: rest := by
  induction bs with
  | nil => simp [orderedInsertDate, hlt]
  | cons x xs ih =>
    have hx : dateLtB x D = true := hbs x (by simp)
    simp only [List.cons_append, orderedInsertDate, dateLtB_asymm hx,
      Bool.false_eq_true, if_false, List.append_eq]
    rw [ih (fun b hb => hbs b (by simp [hb]))]

theorem orderedInsertDate_last (D : Date) (bs : List Date)
    (hbs : ∀ b ∈ bs, dateLtB b D = true) :
    orderedInsertDate D bs = bs ++ [D] := by
  induction bs with
  | nil => rfl
  | cons x xs ih =>
    have hx : dateLtB x D = true := hbs x (by simp)
    simp only [orderedInsertDate, dateLtB_asymm hx, Bool.false_eq_true, if_false,
      List.cons_append, List.append_eq]
    rw [ih (fun b hb => hbs b (by simp [hb]))]

def c4exJ : Str := litS "# 2026/01/10\nnote # 2026/01/20\n\n# 2026/01/20\n- x\n"

def c4exD : Date := ⟨2026, 1, 15⟩

/-- Claim C4, as stated, fails: in this document the day headers are strictly
ascending, every line is representable, content lines are not day headers, no
header for the new date exists — yet because `find_insertion_point` locates
the first later header line by `str::find` on its text, and that text also
occurs inside an earlier content line, the insertion splices into the middle
of that content line: the note is truncated and a duplicate header appears,
so the new day is not inserted immediately before the first later header. -/
theorem c4_insertion_counterexample :
    headerDatesOf c4exJ = [⟨2026, 1, 10⟩, ⟨2026, 1, 20⟩] ∧
    strictAscendingDates (headerDatesOf c4exJ) = true ∧
    (∀ l ∈ rustLines c4exJ, lineOk l = true) ∧
    (∀ l ∈ rustLines c4exJ, is_day_header l = false ∨
      l = litS "# 2026/01/10" ∨ l = litS "# 2026/01/20") ∧
    strFind (day_header c4exD) c4exJ = none ∧
    trimBoth (litS "- c") ≠ [] ∧
    update_day_content c4exJ c4exD (litS "- c") =
      litS "# 2026/01/10\nnote\n\n# 2026/01/15\n- c\n# 2026/01/20\n\n# 2026/01/20\n- x\n" ∧
    headerDatesOf (update_day_content c4exJ c4exD (litS "- c")) ≠
      orderedInsertDate c4exD (headerDatesOf c4exJ) := by
  decide

theorem joinNl_cons_ne (x : Str) {xs : List Str} (h : xs ≠ []) :
    joinNl (x :: xs) = x ++ nlc :: joinNl xs := by
  cases xs with
  | nil => exact absurd rfl h
  | cons a as => rfl

theorem parse_day_header_nil : parse_day_header [] = none := rfl

theorem lineOk_nil : lineOk ([] : Str) = true := by decide

theorem fipGo_append_skip (j : Str) (D : Date) (L₁ rest : List Str)
    (h : ∀ l ∈ L₁, ∀ dd, parse_day_header l = some dd → dateLtB D dd = false) :
    fipGo j D (L₁ ++ rest) = fipGo j D rest := by
  induction L₁ with
  | nil => rfl
  | cons x xs ih =>
    simp only [List.cons_append, fipGo]
    cases hx : parse_day_header x with
    | none => exact ih (fun l hl dd hp => h l (by simp [hl]) dd hp)
    | some dd =>
      have hlt := h x (by simp) dd hx
      simp only [hlt, Bool.false_eq_true, if_false]
      exact ih (fun l hl dd2 hp => h l (by simp [hl]) dd2 hp)

theorem fipGo_none (j : Str) (D : Date) (L : List Str)
    (h : ∀ l ∈ L, ∀ dd, parse_day_header l = some dd → dateLtB D dd = false) :
    fipGo j D L = none := by
  have := fipGo_append_skip j D L [] h
  rw [List.append_nil] at this
  rw [this]
  rfl

/-- A line is either not a day header, or a header whose date is before `D`. -/
def headerBelow (D : Date) (l : Str) : Bool :=
  match parse_day_header l with
  | some dd => dateLtB dd D
  | none => true

theorem headerBelow_flip {D : Date} {l : Str} (h : headerBelow D l = true) :
    ∀ dd, parse_day_header l = some dd → dateLtB D dd = false := by
  intro dd hp
  unfold headerBelow at h
  rw [hp] at h
  exact dateLtB_asymm h

theorem lastCharNonWs_cons_of (c : Char) {s : Str} (h : lastCharNonWs s = true) :
    lastCharNonWs (c :: s) = true := by
  have hs := ne_nil_of_lastCharNonWs h
  unfold lastCharNonWs at h ⊢
  rwa [getLast?_cons_of_ne hs]

/-- The `trim_end` applied by `insert_new_day` to its freshly built day block
leaves the header plus content intact when the content has no trailing
whitespace. -/
theorem trimEnd_newday {content : Str} (D : Date) (h5 : lastCharNonWs content = true) :
    trimEnd (day_header D ++ nlc :: trimEnd content ++ [nlc])
      = day_header D ++ nlc :: content := by
  rw [trimEnd_of_lastCharNonWs h5]
  have hassoc : day_header D ++ nlc :: content ++ [nlc]
      = (day_header D ++ nlc :: content) ++ [nlc] := by simp
  rw [hassoc, trimEnd_append_ws_single _ (by decide)]
  exact trimEnd_of_lastCharNonWs
    (lastCharNonWs_append (by simp) (lastCharNonWs_cons_of nlc h5))

theorem filterMap_parse_none {CL : List Str}
    (h : ∀ l ∈ CL, parse_day_header l = none) :
    CL.filterMap parse_day_header = [] := by
  induction CL with
  | nil => rfl
  | cons x xs ih =>
    rw [List.filterMap_cons, h x (by simp)]
    exact ih fun l hl => h l (by simp [hl])

/-- Insertion case with the new day earliest: the located header line starts
the document, so the block is placed in front. -/
theorem c4InsertZero (L₂ CL : List Str) (D dnext : Date) (journal content : Str)
    (h1 : journal = joinNl (day_header dnext :: L₂) ++ [nlc])
    (h2 : content = joinNl CL)
    (hCLne : CL ≠ [])
    (hok : ∀ l ∈ day_header dnext :: L₂, lineOk l = true)
    (hCLok : ∀ l ∈ CL, lineOk l = true)
    (hCLnh : ∀ l ∈ CL, parse_day_header l = none)
    (h5 : lastCharNonWs content = true)
    (h7 : lastCharNonWs (joinNl (day_header dnext :: L₂)) = true)
    (hpd : parse_day_header (day_header dnext) = some dnext)
    (hpD : parse_day_header (day_header D) = some D)
    (hDok : lineOk (day_header D) = true)
    (hlt : dateLtB D dnext = true)
    (hnf : strFind (day_header D) journal = none)
    (hf : strFind (day_header dnext) journal = some 0) :
    headerDatesOf (update_day_content journal D content) =
      orderedInsertDate D (headerDatesOf journal) := by
  have hblank : ¬(trimBoth content = []) := trimBoth_ne_nil_of_lastCharNonWs h5
  have hrl : rustLines journal = day_header dnext :: L₂ := by
    rw [h1]
    exact rustLines_joinNl_nl (by simp) hok
  have hfip : find_insertion_point journal D = some 0 := by
    unfold find_insertion_point
    rw [hrl]
    simp only [fipGo, hpd]
    rw [if_pos hlt]
    exact hf
  have hts : trimStart journal = journal := by
    rw [h1]
    cases L₂ with
    | nil => exact trimStart_cons_of_not_ws _ (by decide)
    | cons a as => exact trimStart_cons_of_not_ws _ (by decide)
  have hokBIG : ∀ l ∈ day_header D :: CL ++ day_header dnext :: L₂, lineOk l = true := by
    intro l hl
    simp only [List.mem_cons, List.mem_append] at hl
    rcases hl with (h | h) | h | h
    · subst h
      exact hDok
    · exact hCLok l h
    · exact hok l (by simp [h])
    · exact hok l (by simp [h])
  have hbiglast :
      lastCharNonWs (joinNl (day_header D :: CL ++ day_header dnext :: L₂)) = true := by
    have hx : joinNl (day_header D :: CL ++ day_header dnext :: L₂)
        = (day_header D ++ nlc :: content ++ [nlc]) ++ joinNl (day_header dnext :: L₂) := by
      rw [joinNl_append (by simp : day_header D :: CL ≠ []) (by simp),
        joinNl_cons_ne _ hCLne, ← h2]
      simp [List.append_assoc]
    rw [hx]
    exact lastCharNonWs_append (ne_nil_of_lastCharNonWs h7) h7
  simp only [update_day_content, hnf]
  rw [if_neg hblank]
  simp only [insert_new_day, hfip]
  rw [List.take_zero, List.drop_zero, trimEnd_nil, if_pos rfl, hts, trimEnd_newday D h5]
  have hbigeq : (day_header D ++ nlc :: content) ++ nlc :: journal
      = joinNl (day_header D :: CL ++ day_header dnext :: L₂) ++ [nlc] := by
    rw [h1, joinNl_append (by simp : day_header D :: CL ≠ []) (by simp),
      joinNl_cons_ne _ hCLne, ← h2]
    simp [List.append_assoc]
  rw [hbigeq, trimEnd_append_ws_single _ (by decide), trimEnd_of_lastCharNonWs hbiglast]
  unfold headerDatesOf
  rw [rustLines_joinNl_nl (by simp) hokBIG, hrl]
  simp only [List.filterMap_cons, List.filterMap_append, hpD, hpd,
    filterMap_parse_none hCLnh]
  simp only [orderedInsertDate]
  rw [if_pos hlt]
  simp

/-- Insertion case with a nonempty prefix of earlier days: the block lands
between the prefix and the first strictly greater header. -/
theorem c4InsertPos (L₁ L₂ CL : List Str) (D dnext : Date) (journal content : Str)
    (hL1 : L₁ ≠ [])
    (h1 : journal = joinNl (L₁ ++ day_header dnext :: L₂) ++ [nlc])
    (h2 : content = joinNl CL)
    (hCLne : CL ≠ [])
    (hok : ∀ l ∈ L₁ ++ day_header dnext :: L₂, lineOk l = true)
    (hCLok : ∀ l ∈ CL, lineOk l = true)
    (hCLnh : ∀ l ∈ CL, parse_day_header l = none)
    (h5 : lastCharNonWs content = true)
    (h6 : lastCharNonWs (joinNl L₁) = true)
    (h7 : lastCharNonWs (joinNl (day_header dnext :: L₂)) = true)
    (hL1p : ∀ l ∈ L₁, headerBelow D l = true)
    (hpd : parse_day_header (day_header dnext) = some dnext)
    (hpD : parse_day_header (day_header D) = some D)
    (hDok : lineOk (day_header D) = true)
    (hlt : dateLtB D dnext = true)
    (hnf : strFind (day_header D) journal = none)
    (hf : strFind (day_header dnext) journal = some ((joinNl L₁).length + 1)) :
    headerDatesOf (update_day_content journal D content) =
      orderedInsertDate D (headerDatesOf journal) := by
  have hblank : ¬(trimBoth content = []) := trimBoth_ne_nil_of_lastCharNonWs h5
  have hrl : rustLines journal = L₁ ++ day_header dnext :: L₂ := by
    rw [h1]
    exact rustLines_joinNl_nl (by simp) hok
  have hfip : find_insertion_point journal D = some ((joinNl L₁).length + 1) := by
    unfold find_insertion_point
    rw [hrl, fipGo_append_skip journal D L₁ _ (fun l hl => headerBelow_flip (hL1p l hl))]
    simp only [fipGo, hpd]
    rw [if_pos hlt]
    exact hf
  have hJdec : journal
      = (joinNl L₁ ++ [nlc]) ++ (joinNl (day_header dnext :: L₂) ++ [nlc]) := by
    rw [h1, joinNl_append hL1 (by simp)]
    simp [List.append_assoc]
  have hlen : (joinNl L₁ ++ [nlc]).length = (joinNl L₁).length + 1 := by simp
  have htake : journal.take ((joinNl L₁).length + 1) = joinNl L₁ ++ [nlc] := by
    rw [hJdec]
    exact List.take_left' hlen
  have hdrop : journal.drop ((joinNl L₁).length + 1)
      = joinNl (day_header dnext :: L₂) ++ [nlc] := by
    rw [hJdec]
    exact List.drop_left' hlen
  have hbef : trimEnd (joinNl L₁ ++ [nlc]) = joinNl L₁ := by
    rw [trimEnd_append_ws_single _ (by decide)]
    exact trimEnd_of_lastCharNonWs h6
  have hbne : joinNl L₁ ≠ [] := ne_nil_of_lastCharNonWs h6
  have hts : trimStart (joinNl (day_header dnext :: L₂) ++ [nlc])
      = joinNl (day_header dnext :: L₂) ++ [nlc] := by
    cases L₂ with
    | nil => exact trimStart_cons_of_not_ws _ (by decide)
    | cons a as => exact trimStart_cons_of_not_ws _ (by decide)
  have hokBIG : ∀ l ∈ L₁ ++ (([] :: day_header D :: CL) ++ day_header dnext :: L₂),
      lineOk l = true := by
    intro l hl
    simp only [List.mem_append, List.mem_cons] at hl
    rcases hl with h | (h | h | h) | h | h
    · exact hok l (by simp [h])
    · subst h
      exact lineOk_nil
    · subst h
      exact hDok
    · exact hCLok l h
    · exact hok l (by simp [h])
    · exact hok l (by simp [h])
  have hmid : joinNl (([] :: day_header D :: CL) ++ day_header dnext :: L₂)
      = nlc :: (day_header D ++ nlc :: content) ++ nlc :: joinNl (day_header dnext :: L₂) := by
    rw [joinNl_append (by simp) (by simp), joinNl_cons_cons, joinNl_cons_ne _ hCLne, ← h2]
    simp [List.append_assoc]
  have hbiglast :
      lastCharNonWs (joinNl (L₁ ++ (([] :: day_header D :: CL) ++ day_header dnext :: L₂))) = true := by
    have hx : joinNl (L₁ ++ (([] :: day_header D :: CL) ++ day_header dnext :: L₂))
        = (joinNl L₁ ++ nlc :: nlc :: (day_header D ++ nlc :: content) ++ [nlc])
          ++ joinNl (day_header dnext :: L₂) := by
      rw [joinNl_append hL1 (by simp), hmid]
      simp [List.append_assoc]
    rw [hx]
    exact lastCharNonWs_append (ne_nil_of_lastCharNonWs h7) h7
  simp only [update_day_content, hnf]
  rw [if_neg hblank]
  simp only [insert_new_day, hfip]
  rw [htake, hdrop, hbef, if_neg hbne, hts, trimEnd_newday D h5]
  have hbigeq : joinNl L₁ ++ nlc :: nlc :: (day_header D ++ nlc :: content)
        ++ nlc :: (joinNl (day_header dnext :: L₂) ++ [nlc])
      = joinNl (L₁ ++ (([] :: day_header D :: CL) ++ day_header dnext :: L₂)) ++ [nlc] := by
    rw [joinNl_append hL1 (by simp), hmid]
    simp [List.append_assoc]
  rw [hbigeq, trimEnd_append_ws_single _ (by decide), trimEnd_of_lastCharNonWs hbiglast]
  unfold headerDatesOf
  rw [rustLines_joinNl_nl (by simp) hokBIG, hrl]
  have hbs : ∀ b ∈ List.filterMap parse_day_header L₁, dateLtB b D = true := by
    intro b hb
    rw [List.mem_filterMap] at hb
    obtain ⟨l, hl, hpl⟩ := hb
    have hx := hL1p l hl
    unfold headerBelow at hx
    rw [hpl] at hx
    exact hx
  simp only [List.filterMap_append, List.filterMap_cons, parse_day_header_nil, hpD, hpd,
    filterMap_parse_none hCLnh]
  rw [orderedInsertDate_middle D dnext _ _ hbs hlt]
  simp

/-- Append case: no header is strictly greater, so the block is appended after
a blank separator line. -/
theorem c4Append (L CL : List Str) (D : Date) (journal content : Str)
    (h1 : journal = joinNl L ++ [nlc])
    (hLne : L ≠ [])
    (h2 : content = joinNl CL)
    (hCLne : CL ≠ [])
    (hok : ∀ l ∈ L, lineOk l = true)
    (hCLok : ∀ l ∈ CL, lineOk l = true)
    (hCLnh : ∀ l ∈ CL, parse_day_header l = none)
    (h5 : lastCharNonWs content = true)
    (h6 : lastCharNonWs (joinNl L) = true)
    (hLp : ∀ l ∈ L, headerBelow D l = true)
    (hpD : parse_day_header (day_header D) = some D)
    (hDok : lineOk (day_header D) = true)
    (hnf : strFind (day_header D) journal = none) :
    headerDatesOf (update_day_content journal D content) =
      orderedInsertDate D (headerDatesOf journal) := by
  have hblank : ¬(trimBoth content = []) := trimBoth_ne_nil_of_lastCharNonWs h5
  have hrl : rustLines journal = L := by
    rw [h1]
    exact rustLines_joinNl_nl hLne hok
  have hfip : find_insertion_point journal D = none := by
    unfold find_insertion_point
    rw [hrl]
    exact fipGo_none journal D L (fun l hl => headerBelow_flip (hLp l hl))
  have hr1 : trimEnd journal = joinNl L := by
    rw [h1, trimEnd_append_ws_single _ (by decide)]
    exact trimEnd_of_lastCharNonWs h6
  have hr1ne : joinNl L ≠ [] := ne_nil_of_lastCharNonWs h6
  have hokBIG : ∀ l ∈ L ++ ([] :: day_header D :: CL), lineOk l = true := by
    intro l hl
    simp only [List.mem_append, List.mem_cons] at hl
    rcases hl with h | h | h | h
    · exact hok l h
    · subst h
      exact lineOk_nil
    · subst h
      exact hDok
    · exact hCLok l h
  simp only [update_day_content, hnf]
  rw [if_neg hblank]
  simp only [insert_new_day, hfip]
  rw [hr1, if_pos hr1ne, trimEnd_newday D h5]
  have hbigeq : (joinNl L ++ [nlc, nlc]) ++ (day_header D ++ nlc :: content) ++ [nlc]
      = joinNl (L ++ ([] :: day_header D :: CL)) ++ [nlc] := by
    rw [joinNl_append hLne (by simp), joinNl_cons_cons, joinNl_cons_ne _ hCLne, ← h2]
    simp [List.append_assoc]
  rw [hbigeq]
  unfold headerDatesOf
  rw [rustLines_joinNl_nl (by simp) hokBIG, hrl]
  have hbs : ∀ b ∈ List.filterMap parse_day_header L, dateLtB b D = true := by
    intro b hb
    rw [List.mem_filterMap] at hb
    obtain ⟨l, hl, hpl⟩ := hb
    have hx := hLp l hl
    unfold headerBelow at hx
    rw [hpl] at hx
    exact hx
  simp only [List.filterMap_append, List.filterMap_cons, parse_day_header_nil, hpD,
    filterMap_parse_none hCLnh]
  rw [orderedInsertDate_last D _ hbs]

/-- C4 (amended): for a tidy journal — newline-terminated, lines free of
newlines and carriage returns and not ending in whitespace, every line before
the insertion point either not a day header or one dated before `D`, and each
day-header line located by `str::find` exactly at its own line position (the
substring-confusion cases that refute the original claim are excluded) —
updating a fresh date `D` with non-blank header-free content places the new
day block immediately before the first existing header with a strictly
greater date (first conjunct), or appends it at the end when no header is
strictly greater (second conjunct): either way the document's header-date
sequence becomes the ordered insertion of `D` into the old sequence. -/
theorem c4_insertion_ordering_amended :
    (∀ (L₁ L₂ CL : List Str) (D dnext : Date) (journal content : Str),
      journal = joinNl (L₁ ++ day_header dnext :: L₂) ++ [nlc] →
      content = joinNl CL →
      CL ≠ [] →
      (∀ l ∈ L₁ ++ day_header dnext :: L₂, lineOk l = true) →
      (∀ l ∈ CL, lineOk l = true) →
      (∀ l ∈ CL, parse_day_header l = none) →
      lastCharNonWs content = true →
      (L₁ ≠ [] → lastCharNonWs (joinNl L₁) = true) →
      lastCharNonWs (joinNl (day_header dnext :: L₂)) = true →
      (∀ l ∈ L₁, headerBelow D l = true) →
      parse_day_header (day_header dnext) = some dnext →
      parse_day_header (day_header D) = some D →
      lineOk (day_header D) = true →
      dateLtB D dnext = true →
      strFind (day_header D) journal = none →
      strFind (day_header dnext) journal
        = some (if L₁ = [] then 0 else (joinNl L₁).length + 1) →
      headerDatesOf (update_day_content journal D content)
        = orderedInsertDate D (headerDatesOf journal)) ∧
    (∀ (L CL : List Str) (D : Date) (journal content : Str),
      journal = joinNl L ++ [nlc] →
      L ≠ [] →
      content = joinNl CL →
      CL ≠ [] →
      (∀ l ∈ L, lineOk l = true) →
      (∀ l ∈ CL, lineOk l = true) →
      (∀ l ∈ CL, parse_day_header l = none) →
      lastCharNonWs content = true →
      lastCharNonWs (joinNl L) = true →
      (∀ l ∈ L, headerBelow D l = true) →
      parse_day_header (day_header D) = some D →
      lineOk (day_header D) = true →
      strFind (day_header D) journal = none →
      headerDatesOf (update_day_content journal D content)
        = orderedInsertDate D (headerDatesOf journal)) := by
  constructor
  · intro L₁ L₂ CL D dnext journal content h1 h2 hCLne hok hCLok hCLnh h5 h6 h7
      hL1p hpd hpD hDok hlt hnf hf
    by_cases hL1 : L₁ = []
    · subst hL1
      rw [if_pos rfl] at hf
      exact c4InsertZero L₂ CL D dnext journal content h1 h2 hCLne hok hCLok hCLnh
        h5 h7 hpd hpD hDok hlt hnf hf
    · rw [if_neg hL1] at hf
      exact c4InsertPos L₁ L₂ CL D dnext journal content hL1 h1 h2 hCLne hok hCLok
        hCLnh h5 (h6 hL1) h7 hL1p hpd hpD hDok hlt hnf hf
  · intro L CL D journal content h1 hLne h2 hCLne hok hCLok hCLnh h5 h6 hLp hpD hDok hnf
    exact c4Append L CL D journal content h1 hLne h2 hCLne hok hCLok hCLnh h5 h6
      hLp hpD hDok hnf

/-- Both conjuncts of the amended C4 theorem at concrete documents: a date
between two existing days lands between them, and a date later than all days
is appended at the end. -/
theorem c4_insertion_ordering_amended_witness :
    (headerDatesOf (update_day_content (litS "# 2026/01/10\n- a\n# 2026/01/20\n- x\n")
        ⟨2026, 1, 15⟩ (litS "- c"))
      = orderedInsertDate ⟨2026, 1, 15⟩
          (headerDatesOf (litS "# 2026/01/10\n- a\n# 2026/01/20\n- x\n"))) ∧
    (headerDatesOf (update_day_content (litS "# 2026/01/10\n- a\n")
        ⟨2026, 1, 15⟩ (litS "- c"))
      = orderedInsertDate ⟨2026, 1, 15⟩
          (headerDatesOf (litS "# 2026/01/10\n- a\n"))) :=
  ⟨c4_insertion_ordering_amended.1
      [litS "# 2026/01/10", litS "- a"] [litS "- x"] [litS "- c"]
      ⟨2026, 1, 15⟩ ⟨2026, 1, 20⟩
      (litS "# 2026/01/10\n- a\n# 2026/01/20\n- x\n") (litS "- c")
      (by decide) (by decide) (by decide) (by decide) (by decide) (by decide)
      (by decide) (by decide) (by decide) (by decide) (by decide) (by decide)
      (by decide) (by decide) (by decide) (by decide),
   c4_insertion_ordering_amended.2
      [litS "# 2026/01/10", litS "- a"] [litS "- c"] ⟨2026, 1, 15⟩
      (litS "# 2026/01/10\n- a\n") (litS "- c")
      (by decide) (by decide) (by decide) (by decide) (by decide) (by decide)
      (by decide) (by decide) (by decide) (by decide) (by decide) (by decide)
      (by decide)⟩
